import Mathlib

/-!
Verification of the bijou encrypted filesystem against its natural-language
specification.  The definitions below are shallow embeddings of the Rust
sources: the block-size arithmetic of `bijou-core/src/algo/mod.rs`, the
block-cipher wrappers (`xchacha20poly1305_ietf.rs`, `ring_aead.rs`,
`xsalsa20.rs`), the path type of `bijou-core/src/fs/path.rs`, the inode layer
of `bijou/src/bijou/mod.rs` (make_node / link / unlink / rename / resolve),
the block pipeline of `bijou-core/src/fs/file.rs`, the XChaCha20-SIV filename
encryption of `crypto/xchacha20_siv.rs`, and the cluster table of
`bijou-core/src/fs/raw/split.rs`.

Machine integers are modelled as `Nat` (the size arithmetic never overflows
for the claims considered), byte strings as `List Nat`, and fallible Rust
functions as `Except`-valued Lean functions.  External primitives (libsodium
AEAD seal/open, BLAKE2b, the RNG's nonce stream) are parameters of the
corresponding definitions, exactly mirroring the trait objects of the source.
-/

namespace Bijou

/-- Error kinds of `bijou-core/src/error.rs` that the embedded code paths can
produce, plus `panicked` for a Rust `assert!`/`unwrap` failure. -/
inductive Err where
  | panicked
  | cryptoError
  | dbError
  | ioError
  | notFound
  | notEmpty
  | notADirectory
  | invalidInput
  | filesystemLoop
  | alreadyExists
  | badFileDescriptor
  deriving DecidableEq, Repr

/-! ## Block size arithmetic (`Algorithm` in `bijou-core/src/algo/mod.rs`)

`c` is `content_size`, `m` is `metadata_size = header_size + tag_size`.
Natural subtraction coincides with Rust's `saturating_sub`. -/

/-- `Algorithm::plaintext_size`: size of the plaintext recovered from a
ciphertext of `ct` bytes. -/
def plaintext_size (c m ct : Nat) : Nat :=
  ct / (c + m) * c + (ct % (c + m) - m)

/-- `Algorithm::ciphertext_size`: size of the ciphertext produced from a
plaintext of `p` bytes. -/
def ciphertext_size (c m p : Nat) : Nat :=
  p / c * (c + m) + (if p % c = 0 then 0 else m + p % c)

theorem plaintext_ciphertext_size (c m p : Nat) (hc : 0 < c) :
    plaintext_size c m (ciphertext_size c m p) = p := by
  have hcm : 0 < c + m := Nat.lt_of_lt_of_le hc (Nat.le_add_right c m)
  obtain ⟨a, r, hrlt, hp⟩ : ∃ a r, r < c ∧ p = c * a + r :=
    ⟨p / c, p % c, Nat.mod_lt p hc, (Nat.div_add_mod p c).symm⟩
  subst hp
  have ha : (c * a + r) / c = a := by
    rw [Nat.mul_add_div hc, Nat.div_eq_of_lt hrlt]
    omega
  have hr : (c * a + r) % c = r := by
    rw [Nat.mul_add_mod, Nat.mod_eq_of_lt hrlt]
  simp only [ciphertext_size, ha, hr]
  by_cases h : r = 0
  · subst h
    rw [if_pos rfl]
    have e1 : a * (c + m) + 0 = 0 + (c + m) * a := by ring
    simp only [plaintext_size, e1]
    rw [Nat.add_mul_div_left _ _ hcm, Nat.add_mul_mod_self_left]
    simp only [Nat.zero_div, Nat.zero_mod, Nat.zero_add]
    have e2 : a * c = c * a := by ring
    omega
  · rw [if_neg h]
    simp only [plaintext_size]
    have e1 : a * (c + m) + (m + r) = m + r + (c + m) * a := by ring
    rw [e1, Nat.add_mul_div_left _ _ hcm,
      Nat.div_eq_of_lt (show m + r < c + m by omega),
      Nat.add_mul_mod_self_left, Nat.mod_eq_of_lt (show m + r < c + m by omega)]
    have e2 : (0 + a) * c = c * a := by ring
    omega

/-- Closed form: `ciphertext_size` adds `m` bytes per (rounded-up) block. -/
theorem ciphertext_size_eq (c m p : Nat) (hc : 0 < c) :
    ciphertext_size c m p = p + m * ((p + c - 1) / c) := by
  obtain ⟨a, r, hrlt, hp⟩ : ∃ a r, r < c ∧ p = c * a + r :=
    ⟨p / c, p % c, Nat.mod_lt p hc, (Nat.div_add_mod p c).symm⟩
  subst hp
  have ha : (c * a + r) / c = a := by
    rw [Nat.mul_add_div hc, Nat.div_eq_of_lt hrlt]
    omega
  have hr : (c * a + r) % c = r := by
    rw [Nat.mul_add_mod, Nat.mod_eq_of_lt hrlt]
  simp only [ciphertext_size, ha, hr]
  by_cases h : r = 0
  · subst h
    rw [if_pos rfl]
    have harg : c * a + 0 + c - 1 = c - 1 + c * a := by omega
    rw [harg, Nat.add_mul_div_left _ _ hc, Nat.div_eq_of_lt (by omega)]
    have e1 : a * (c + m) = c * a + m * a := by ring
    have e2 : m * (0 + a) = m * a := by ring
    omega
  · rw [if_neg h]
    have h2 : c * (a + 1) = c * a + c := by ring
    have harg : c * a + r + c - 1 = r - 1 + c * (a + 1) := by omega
    rw [harg, Nat.add_mul_div_left _ _ hc,
      Nat.div_eq_of_lt (show r - 1 < c by omega)]
    have e1 : a * (c + m) = c * a + m * a := by ring
    have e2 : m * (0 + (a + 1)) = m * a + m := by ring
    omega

theorem ciphertext_size_mono (c m : Nat) (hc : 0 < c) :
    Monotone (ciphertext_size c m) := by
  intro p q hpq
  rw [ciphertext_size_eq c m p hc, ciphertext_size_eq c m q hc]
  have h1 : (p + c - 1) / c ≤ (q + c - 1) / c :=
    Nat.div_le_div_right (by omega)
  have h2 : m * ((p + c - 1) / c) ≤ m * ((q + c - 1) / c) :=
    Nat.mul_le_mul_left m h1
  omega

theorem plaintext_size_mono (c m : Nat) :
    Monotone (plaintext_size c m) := by
  have step : ∀ x, plaintext_size c m x ≤ plaintext_size c m (x + 1) := by
    intro x
    rcases Nat.eq_zero_or_pos (c + m) with h0 | h0
    · obtain ⟨hc0, hm0⟩ : c = 0 ∧ m = 0 := by omega
      subst hc0; subst hm0
      simp only [plaintext_size, Nat.add_zero, Nat.mod_zero, Nat.zero_sub,
        Nat.sub_zero]
      omega
    · have hx : (c + m) * (x / (c + m)) + x % (c + m) = x :=
        Nat.div_add_mod x (c + m)
      have hx1 : x + 1 = x % (c + m) + 1 + (c + m) * (x / (c + m)) := by omega
      by_cases hlt : x % (c + m) + 1 < c + m
      · have hdiv : (x + 1) / (c + m) = x / (c + m) := by
          rw [hx1, Nat.add_mul_div_left _ _ h0, Nat.div_eq_of_lt hlt]
          omega
        have hmod : (x + 1) % (c + m) = x % (c + m) + 1 := by
          rw [hx1, Nat.add_mul_mod_self_left, Nat.mod_eq_of_lt hlt]
        simp only [plaintext_size, hdiv, hmod]
        omega
      · have heq : x % (c + m) + 1 = c + m := by
          have := Nat.mod_lt x h0
          omega
        have hdiv : (x + 1) / (c + m) = x / (c + m) + 1 := by
          rw [hx1, heq, Nat.add_mul_div_left _ _ h0, Nat.div_self h0]
          omega
        have hmod : (x + 1) % (c + m) = 0 := by
          rw [hx1, heq, Nat.add_mul_mod_self_left, Nat.mod_self]
        simp only [plaintext_size, hdiv, hmod]
        have e1 : (x / (c + m) + 1) * c = x / (c + m) * c + c := by ring
        omega
  exact monotone_nat_of_le_succ step

/-- If the recorded ciphertext size decodes to a plaintext size below
`offset`, then it is at most `ciphertext_size offset` (used by the
write-extension path of `LowLevelFile::write`). -/
theorem size_le_ciphertext_of_plaintext_lt (c m sz offset : Nat) (hc : 0 < c)
    (h : plaintext_size c m sz < offset) : sz ≤ ciphertext_size c m offset := by
  by_contra hlt
  have h1 : ciphertext_size c m offset ≤ sz := by omega
  have h2 : plaintext_size c m (ciphertext_size c m offset)
      ≤ plaintext_size c m sz := plaintext_size_mono c m h1
  rw [plaintext_ciphertext_size c m offset hc] at h2
  omega

/-- C2: for every plaintext length `p` and every algorithm with
`content_size = c > 0` and `metadata_size = m`, the ciphertext size is
`(p / c) * (c + m)` plus (`0` if `p % c = 0`, else `m + p % c`), and
`plaintext_size` is a left inverse of `ciphertext_size`; consequently
`ciphertext_size` is also a right inverse of `plaintext_size` on the valid
(i.e. reachable) ciphertext sizes. -/
theorem C2_size_functions_mutually_inverse (c m p : Nat) (hc : 0 < c) :
    ciphertext_size c m p
        = p / c * (c + m) + (if p % c = 0 then 0 else m + p % c) ∧
    plaintext_size c m (ciphertext_size c m p) = p ∧
    ciphertext_size c m (plaintext_size c m (ciphertext_size c m p))
        = ciphertext_size c m p := by
  refine ⟨rfl, plaintext_ciphertext_size c m p hc, ?_⟩
  rw [plaintext_ciphertext_size c m p hc]

theorem C2_witness :
    0 < 16 ∧
    (ciphertext_size 16 28 40
        = 40 / 16 * (16 + 28) + (if 40 % 16 = 0 then 0 else 28 + 40 % 16) ∧
      plaintext_size 16 28 (ciphertext_size 16 28 40) = 40 ∧
      ciphertext_size 16 28 (plaintext_size 16 28 (ciphertext_size 16 28 40))
        = ciphertext_size 16 28 40) :=
  ⟨by decide, C2_size_functions_mutually_inverse 16 28 40 (by decide)⟩

/-! ## Block cipher wrappers (C1)

Shallow embedding of the three `AlgoKey` implementations:
`bijou-core/src/algo/xchacha20poly1305_ietf.rs` (24-byte nonce, 16-byte tag),
`bijou/src/algo/ring_aead.rs` (12-byte nonce, 16-byte tag) and
`bijou-core/src/algo/xsalsa20.rs` (24-byte nonce, no tag).

The cipher primitives (libsodium `seal_detached`/`open_detached`, ring's
`seal_in_place_separate_tag`/`open_in_place`, `stream_xor_ic_inplace`) are
parameters, mirroring the external libraries.  The RNG behind `gen_nonce` /
`rand_bytes` is modelled by the list of nonces it would successively return;
the resampling loop consumes that list until it finds a non-nil nonce
(`Err.panicked` stands for the loop never terminating, which the theorems
never rely on).  In-place mutation through a `&mut [u8]` slice cannot change
the slice's length, which `fitLen` enforces on the primitives' outputs. -/

/-- `is_nil` in `algo/mod.rs`: all bytes zero. -/
def isNil (l : List Nat) : Bool := l.all (fun b => b = 0)

/-- All-zero byte string. -/
def zeros (n : Nat) : List Nat := List.replicate n 0

/-- Clamp `l` to exactly `n` bytes, as writing `l` through a `&mut` slice of
length `n` would. -/
def fitLen (n : Nat) (l : List Nat) : List Nat := (l ++ zeros (n - l.length)).take n

/-- `u64::to_le_bytes`. -/
def le64 (x : Nat) : List Nat := (List.range 8).map (fun i => x / 256 ^ i % 256)

/-- The nonce-resampling loop shared by all three `encrypt` implementations:
draw from the RNG until the nonce is not all-zero. -/
def pickNonce (nonces : List (List Nat)) : Option (List Nat) :=
  nonces.find? (fun n => !isNil n)

/-- `Key::encrypt` of `xchacha20poly1305_ietf.rs`.  `seal d ad n k` returns
the detached `(ciphertext, tag)` of libsodium `seal_detached`. -/
def xchacha_encrypt (sealFn : List Nat → List Nat → List Nat → List Nat → List Nat × List Nat)
    (nonces : List (List Nat)) (key : List Nat) (block : Nat) (buffer : List Nat) :
    Except Err (List Nat) :=
  if buffer.length < 24 + 16 then .error .panicked
  else
    match pickNonce nonces with
    | none => .error .panicked
    | some nonce =>
      let data := (buffer.drop 24).take (buffer.length - (24 + 16))
      let st := sealFn data (le64 block) (fitLen 24 nonce) key
      .ok (fitLen 24 nonce ++ fitLen data.length st.1 ++ fitLen 16 st.2)

/-- `Key::decrypt` of `xchacha20poly1305_ietf.rs`.  `openf d ad t n k` is
libsodium `open_detached` (`none` = authentication failure).  A nil nonce is
the hole encoding: the code asserts the tag is nil too and zero-fills the
content without touching the primitive. -/
def xchacha_decrypt (openf : List Nat → List Nat → List Nat → List Nat → List Nat → Option (List Nat))
    (key : List Nat) (block : Nat) (buffer : List Nat) : Except Err (List Nat) :=
  if buffer.length < 24 + 16 then .error .panicked
  else
    let nonce := buffer.take 24
    let tag := buffer.drop (buffer.length - 16)
    let data := (buffer.drop 24).take (buffer.length - (24 + 16))
    if isNil nonce then
      if isNil tag then .ok (nonce ++ zeros data.length ++ tag)
      else .error .panicked
    else
      match openf data (le64 block) tag nonce key with
      | some pt => .ok (nonce ++ fitLen data.length pt ++ tag)
      | none => .error .cryptoError

/-- `Key::encrypt` of `ring_aead.rs`: 12-byte nonce, tag separated from the
last 16 bytes of the remainder. -/
def ring_encrypt (sealFn : List Nat → List Nat → List Nat → List Nat → Option (List Nat × List Nat))
    (nonces : List (List Nat)) (key : List Nat) (block : Nat) (buffer : List Nat) :
    Except Err (List Nat) :=
  if buffer.length < 12 + 16 then .error .panicked
  else
    match pickNonce nonces with
    | none => .error .panicked
    | some nonce =>
      let data := (buffer.drop 12).take (buffer.length - (12 + 16))
      match sealFn data (le64 block) (fitLen 12 nonce) key with
      | some st => .ok (fitLen 12 nonce ++ fitLen data.length st.1 ++ fitLen 16 st.2)
      | none => .error .cryptoError

/-- `Key::decrypt` of `ring_aead.rs`: on a nil nonce the whole remainder
(content and tag bytes) is zero-filled without invoking ring. -/
def ring_decrypt (openf : List Nat → List Nat → List Nat → List Nat → Option (List Nat))
    (key : List Nat) (block : Nat) (buffer : List Nat) : Except Err (List Nat) :=
  if buffer.length < 12 then .error .panicked
  else
    let nonce := buffer.take 12
    let data := buffer.drop 12
    if isNil nonce then .ok (nonce ++ zeros data.length)
    else
      match openf data (le64 block) nonce key with
      | some pt => .ok (nonce ++ fitLen data.length pt)
      | none => .error .cryptoError

/-- `Key::encrypt` of `xsalsa20.rs`: 24-byte nonce, no tag; `sxor d n ic k`
is `stream_xor_ic_inplace`. -/
def xsalsa_encrypt (sxor : List Nat → List Nat → Nat → List Nat → List Nat)
    (nonces : List (List Nat)) (key : List Nat) (block : Nat) (buffer : List Nat) :
    Except Err (List Nat) :=
  if buffer.length < 24 then .error .panicked
  else
    match pickNonce nonces with
    | none => .error .panicked
    | some nonce =>
      let data := buffer.drop 24
      .ok (fitLen 24 nonce ++ fitLen data.length (sxor data (fitLen 24 nonce) block key))

/-- `Key::decrypt` of `xsalsa20.rs`. -/
def xsalsa_decrypt (sxor : List Nat → List Nat → Nat → List Nat → List Nat)
    (key : List Nat) (block : Nat) (buffer : List Nat) : Except Err (List Nat) :=
  if buffer.length < 24 then .error .panicked
  else
    let nonce := buffer.take 24
    let data := buffer.drop 24
    if isNil nonce then .ok (nonce ++ zeros data.length)
    else .ok (nonce ++ fitLen data.length (sxor data nonce block key))

theorem pickNonce_not_nil (nonces : List (List Nat)) (n : List Nat)
    (h : pickNonce nonces = some n) : isNil n = false := by
  have := List.find?_some h
  simpa using this

theorem take_append_self (n : Nat) (l1 l2 : List Nat) (h : l1.length = n) :
    (l1 ++ l2).take n = l1 := by
  subst h
  exact List.take_left l1 l2

/-- Concrete buffer: all-zero 24-byte header, one content byte, non-zero
16-byte tag. -/
def c1CexBuffer : List Nat := zeros 24 ++ [7] ++ (1 :: zeros 15)

/-- C1 counterexample: decrypting a block whose header is all-zero but whose
tag is not panics in `xchacha20poly1305_ietf.rs` (`assert!(is_nil(&tag.0))`)
instead of filling the content bytes with zeros, even though the primitive is
never invoked.  The claim is false as stated. -/
theorem C1_counterexample :
    xchacha_decrypt (fun d _ _ _ _ => some d) [] 0 c1CexBuffer
        = Except.error Err.panicked ∧
    xchacha_decrypt (fun d _ _ _ _ => some d) [] 0 c1CexBuffer
        ≠ Except.ok (zeros 24 ++ [0] ++ (1 :: zeros 15)) := by
  have h1 : xchacha_decrypt (fun d _ _ _ _ => some d) [] 0 c1CexBuffer
      = Except.error Err.panicked := rfl
  refine ⟨h1, ?_⟩
  rw [h1]
  exact fun h => Except.noConfusion h

/-- C1 (amended): a ciphertext block whose header bytes are all zero — and,
for the XChaCha20-Poly1305 implementation, whose tag bytes are also all
zero — decrypts without invoking the cipher primitive (the result does not
depend on the primitive parameter, which is universally quantified) and has
its content bytes filled with zeros; for the ring AEAD and XSalsa20
implementations the zero header alone suffices (ring zero-fills the tag bytes
as well).  XChaCha20-Poly1305 rejects a zero header with a non-zero tag by an
assertion without invoking the primitive.  Every successful call to any of
the three `encrypt`s resamples the nonce until it is non-zero and therefore
writes a header that is not all-zero. -/
theorem C1_hole_decrypt_and_nonzero_nonce_encrypt :
    (∀ openf key block buffer, 24 + 16 ≤ buffer.length →
      isNil (buffer.take 24) = true →
      isNil (buffer.drop (buffer.length - 16)) = true →
      xchacha_decrypt openf key block buffer
        = .ok (buffer.take 24 ++ zeros (buffer.length - (24 + 16))
            ++ buffer.drop (buffer.length - 16))) ∧
    (∀ openf key block buffer, 12 ≤ buffer.length →
      isNil (buffer.take 12) = true →
      ring_decrypt openf key block buffer
        = .ok (buffer.take 12 ++ zeros (buffer.length - 12))) ∧
    (∀ sxor key block buffer, 24 ≤ buffer.length →
      isNil (buffer.take 24) = true →
      xsalsa_decrypt sxor key block buffer
        = .ok (buffer.take 24 ++ zeros (buffer.length - 24))) ∧
    (∀ sealFn nonces key block buffer out,
      (∀ n ∈ nonces, List.length n = 24) →
      xchacha_encrypt sealFn nonces key block buffer = .ok out →
      isNil (out.take 24) = false) ∧
    (∀ sealFn nonces key block buffer out,
      (∀ n ∈ nonces, List.length n = 12) →
      ring_encrypt sealFn nonces key block buffer = .ok out →
      isNil (out.take 12) = false) ∧
    (∀ sxor nonces key block buffer out,
      (∀ n ∈ nonces, List.length n = 24) →
      xsalsa_encrypt sxor nonces key block buffer = .ok out →
      isNil (out.take 24) = false) := by
  refine ⟨?_, ?_, ?_, ?_, ?_, ?_⟩
  · intro openf key block buffer hlen h1 h2
    have hdata : ((buffer.drop 24).take (buffer.length - (24 + 16))).length
        = buffer.length - (24 + 16) := by
      rw [List.length_take, List.length_drop]
      exact min_eq_left (Nat.sub_le_sub_left (by omega) _)
    simp [xchacha_decrypt, if_neg (by omega : ¬ buffer.length < 24 + 16), h1, h2, hdata]
  · intro openf key block buffer hlen h1
    simp only [ring_decrypt, if_neg (by omega : ¬ buffer.length < 12), h1]
    simp
  · intro sxor key block buffer hlen h1
    simp only [xsalsa_decrypt, if_neg (by omega : ¬ buffer.length < 24), h1]
    simp
  · intro sealFn nonces key block buffer out hn hok
    simp only [xchacha_encrypt] at hok
    by_cases hlen : buffer.length < 24 + 16
    · simp [hlen] at hok
    · simp only [if_neg hlen] at hok
      cases hp : pickNonce nonces with
      | none => simp [hp] at hok
      | some nonce =>
        simp only [hp] at hok
        have hnl : nonce.length = 24 := hn nonce (List.mem_of_find?_eq_some hp)
        have hfit : fitLen 24 nonce = nonce := by
          simp [fitLen, hnl, zeros]
        have hne := pickNonce_not_nil nonces nonce hp
        cases hok
        rw [hfit, List.append_assoc, take_append_self 24 nonce _ hnl]
        exact hne
  · intro sealFn nonces key block buffer out hn hok
    simp only [ring_encrypt] at hok
    by_cases hlen : buffer.length < 12 + 16
    · simp [hlen] at hok
    · simp only [if_neg hlen] at hok
      cases hp : pickNonce nonces with
      | none => simp [hp] at hok
      | some nonce =>
        simp only [hp] at hok
        have hnl : nonce.length = 12 := hn nonce (List.mem_of_find?_eq_some hp)
        have hfit : fitLen 12 nonce = nonce := by
          simp [fitLen, hnl, zeros]
        have hne := pickNonce_not_nil nonces nonce hp
        rw [hfit] at hok
        cases hs : sealFn ((buffer.drop 12).take (buffer.length - (12 + 16)))
            (le64 block) nonce key with
        | none => simp [hs] at hok
        | some st =>
          simp only [hs] at hok
          cases hok
          rw [List.append_assoc, take_append_self 12 nonce _ hnl]
          exact hne
  · intro sxor nonces key block buffer out hn hok
    simp only [xsalsa_encrypt] at hok
    by_cases hlen : buffer.length < 24
    · simp [hlen] at hok
    · simp only [if_neg hlen] at hok
      cases hp : pickNonce nonces with
      | none => simp [hp] at hok
      | some nonce =>
        simp only [hp] at hok
        have hnl : nonce.length = 24 := hn nonce (List.mem_of_find?_eq_some hp)
        have hfit : fitLen 24 nonce = nonce := by
          simp [fitLen, hnl, zeros]
        cases hok
        have hne := pickNonce_not_nil nonces nonce hp
        rw [hfit, take_append_self 24 nonce _ hnl]
        exact hne

theorem C1_amended_witness :
    (24 + 16 ≤ (zeros 41).length ∧ isNil ((zeros 41).take 24) = true ∧
      isNil ((zeros 41).drop ((zeros 41).length - 16)) = true ∧
      xchacha_decrypt (fun d _ _ _ _ => some d) [] 3 (zeros 41)
        = .ok ((zeros 41).take 24 ++ zeros ((zeros 41).length - (24 + 16))
            ++ (zeros 41).drop ((zeros 41).length - 16))) ∧
    ((∀ n ∈ [zeros 24, 1 :: zeros 23], List.length n = 24) ∧
      xchacha_encrypt (fun d _ _ _ => (d, zeros 16)) [zeros 24, 1 :: zeros 23]
          [] 3 (zeros 41) = .ok ((1 :: zeros 23) ++ zeros 1 ++ zeros 16) ∧
      isNil ((((1 :: zeros 23) ++ zeros 1 ++ zeros 16)).take 24) = false) := by
  constructor
  · refine ⟨by decide, by decide, by decide, ?_⟩
    exact C1_hole_decrypt_and_nonzero_nonce_encrypt.1 _ [] 3 (zeros 41)
      (by decide) (by decide) (by decide)
  · refine ⟨by decide, rfl, ?_⟩
    exact C1_hole_decrypt_and_nonzero_nonce_encrypt.2.2.2.1
      (fun d _ _ _ => (d, zeros 16)) [zeros 24, 1 :: zeros 23] [] 3 (zeros 41)
      ((1 :: zeros 23) ++ zeros 1 ++ zeros 16) (by decide) rfl

/-! ## Split backend cluster table (C10)

`FileClusters` from `bijou-core/src/fs/raw/split.rs`: a dense vector `ids`
of child FileIds for the leading cluster indices plus a sparse ordered map
for indices written out of order.  `BTreeMap<u64, FileId>` is modelled as a
key-sorted association list (`pop_first` = head, `split_off` = filter). -/

structure FileClusters where
  ids : List Nat
  sparse : List (Nat × Nat)
  deriving DecidableEq, Repr

/-- Keys of the sparse map are strictly increasing (the `BTreeMap`
representation invariant). -/
def SparseSorted (c : FileClusters) : Prop :=
  List.Pairwise (fun a b => a.1 < b.1) c.sparse

instance (c : FileClusters) : Decidable (SparseSorted c) := by
  unfold SparseSorted
  infer_instance

/-- `FileClusters::get`: the dense vector first, the sparse map second. -/
def FileClusters.get (c : FileClusters) (block : Nat) : Option Nat :=
  match c.ids[block]? with
  | some id => some id
  | none => List.lookup block c.sparse

/-- `BTreeMap::insert` on the sorted association list. -/
def insertSorted (k v : Nat) : List (Nat × Nat) → List (Nat × Nat)
  | [] => [(k, v)]
  | (k0, v0) :: rest =>
    if k < k0 then (k, v) :: (k0, v0) :: rest
    else if k = k0 then (k, v) :: rest
    else (k0, v0) :: insertSorted k v rest

/-- The `while` loop of `FileClusters::insert`: move sparse entries into the
dense vector while the least sparse key equals the vector's length. -/
def drainSparse (ids : List Nat) : List (Nat × Nat) → List Nat × List (Nat × Nat)
  | [] => (ids, [])
  | (k, v) :: rest =>
    if k = ids.length then drainSparse (ids ++ [v]) rest else (ids, (k, v) :: rest)

/-- `FileClusters::insert`. -/
def FileClusters.insert (c : FileClusters) (block id : Nat) : FileClusters :=
  if c.ids.length = block then
    let p := drainSparse (c.ids ++ [id]) c.sparse
    ⟨p.1, p.2⟩
  else
    { c with sparse := insertSorted block id c.sparse }

/-- `FileClusters::truncate`: keep the first `blocks` dense entries and the
sparse keys below `blocks`; the second component is the drained iterator of
removed child ids. -/
def FileClusters.truncate (c : FileClusters) (blocks : Nat) :
    FileClusters × List Nat :=
  (⟨c.ids.take blocks, c.sparse.filter (fun kv => kv.1 < blocks)⟩,
    c.ids.drop blocks ++ (c.sparse.filter (fun kv => ¬ kv.1 < blocks)).map Prod.snd)

/-- The C10 invariant: every sparse key lies strictly beyond the dense
vector. -/
def FileClusters.Inv (c : FileClusters) : Prop :=
  ∀ kv ∈ c.sparse, c.ids.length < kv.1

instance (c : FileClusters) : Decidable (FileClusters.Inv c) := by
  unfold FileClusters.Inv
  infer_instance

theorem drainSparse_inv (sparse : List (Nat × Nat)) :
    ∀ ids, List.Pairwise (fun a b => a.1 < b.1) sparse →
      (∀ kv ∈ sparse, ids.length ≤ kv.1) →
      (∀ kv ∈ (drainSparse ids sparse).2, (drainSparse ids sparse).1.length < kv.1) ∧
        List.Pairwise (fun a b => a.1 < b.1) (drainSparse ids sparse).2 := by
  induction sparse with
  | nil => intro ids _ _; simp [drainSparse]
  | cons hd rest ih =>
    intro ids hsort hge
    obtain ⟨hhd, hrest⟩ := List.pairwise_cons.mp hsort
    by_cases hk : hd.1 = ids.length
    · have hstep : ∀ kv ∈ rest, (ids ++ [hd.2]).length ≤ kv.1 := by
        intro kv hkv
        have := hhd kv hkv
        simp only [List.length_append, List.length_cons, List.length_nil]
        omega
      have := ih (ids ++ [hd.2]) hrest hstep
      simpa [drainSparse, hk] using this
    · have hgt : ids.length < hd.1 := by
        have := hge hd (by simp)
        omega
      constructor
      · intro kv hkv
        simp only [drainSparse, if_neg (by omega : ¬ hd.1 = ids.length)] at hkv ⊢
        rcases List.mem_cons.mp hkv with h | h
        · subst h; exact hgt
        · have := hhd kv h
          omega
      · simp only [drainSparse, if_neg (by omega : ¬ hd.1 = ids.length)]
        exact hsort

theorem insertSorted_mem (k v : Nat) (l : List (Nat × Nat)) (kv : Nat × Nat)
    (h : kv ∈ insertSorted k v l) : kv = (k, v) ∨ kv ∈ l := by
  induction l with
  | nil => simpa [insertSorted] using h
  | cons hd rest ih =>
    simp only [insertSorted] at h
    split at h
    · rcases List.mem_cons.mp h with h | h
      · exact Or.inl h
      · exact Or.inr h
    · split at h
      · rcases List.mem_cons.mp h with h | h
        · exact Or.inl h
        · exact Or.inr (List.mem_cons_of_mem _ h)
      · rcases List.mem_cons.mp h with h | h
        · exact Or.inr (by simp [h])
        · rcases ih h with h | h
          · exact Or.inl h
          · exact Or.inr (List.mem_cons_of_mem _ h)

theorem insertSorted_sorted (k v : Nat) (l : List (Nat × Nat))
    (h : List.Pairwise (fun a b => a.1 < b.1) l) :
    List.Pairwise (fun a b => a.1 < b.1) (insertSorted k v l) := by
  induction l with
  | nil => simp [insertSorted]
  | cons hd rest ih =>
    obtain ⟨hhd, hrest⟩ := List.pairwise_cons.mp h
    simp only [insertSorted]
    split
    · refine List.pairwise_cons.mpr ⟨?_, h⟩
      intro kv hkv
      rcases List.mem_cons.mp hkv with heq | hm
      · subst heq; omega
      · have := hhd kv hm
        omega
    · split
      · refine List.pairwise_cons.mpr ⟨?_, hrest⟩
        intro kv hkv
        have := hhd kv hkv
        omega
      · refine List.pairwise_cons.mpr ⟨?_, ih hrest⟩
        intro kv hkv
        rcases insertSorted_mem k v rest kv hkv with heq | hm
        · subst heq
          omega
        · exact hhd kv hm

/-- C10 counterexample: the record `{ ids = [5], sparse = {} }` satisfies
the invariant, yet `insert(0, 7)` — an index already resolvable from the
dense vector, which the program never passes to `insert` — lands in the
sparse map with key `0 < ids.len()`, breaking it.  The claim's unqualified
"insert preserves the invariant" is therefore false. -/
theorem C10_counterexample :
    FileClusters.Inv ⟨[5], []⟩ ∧
    ¬ FileClusters.Inv (FileClusters.insert ⟨[5], []⟩ 0 7) := by decide

/-- C10 (amended): starting from the empty record, `truncate` preserves the
invariant (every sparse key exceeds the dense length) unconditionally, and
`insert block id` preserves it whenever `get block = none` — which holds at
its only call site, `SplitFile::cluster_id`, so every reachable record
satisfies it; `get i` resolves from the dense vector exactly when
`i < ids.len()`, and otherwise falls back to the sparse map. -/
theorem C10_clusters_invariant :
    (FileClusters.Inv ⟨[], []⟩ ∧ SparseSorted ⟨[], []⟩) ∧
    (∀ c block id, SparseSorted c → FileClusters.Inv c →
      FileClusters.get c block = none →
      FileClusters.Inv (FileClusters.insert c block id) ∧
        SparseSorted (FileClusters.insert c block id)) ∧
    (∀ c blocks, SparseSorted c → FileClusters.Inv c →
      FileClusters.Inv (FileClusters.truncate c blocks).1 ∧
        SparseSorted (FileClusters.truncate c blocks).1) ∧
    (∀ c i, (i < c.ids.length → FileClusters.get c i = c.ids[i]?) ∧
      (c.ids.length ≤ i → FileClusters.get c i = List.lookup i c.sparse)) := by
  refine ⟨⟨by simp [FileClusters.Inv], by simp [SparseSorted]⟩, ?_, ?_, ?_⟩
  · intro c block id hsort hinv hget
    have hnone : c.ids[block]? = none := by
      unfold FileClusters.get at hget
      cases h : c.ids[block]? with
      | none => rfl
      | some x => rw [h] at hget; exact absurd hget (by simp)
    have hblock : c.ids.length ≤ block := by
      simpa using List.getElem?_eq_none_iff.mp hnone
    unfold FileClusters.insert
    by_cases hb : c.ids.length = block
    · have hge : ∀ kv ∈ c.sparse, (c.ids ++ [id]).length ≤ kv.1 := by
        intro kv hkv
        have := hinv kv hkv
        simp only [List.length_append, List.length_cons, List.length_nil]
        omega
      have := drainSparse_inv c.sparse (c.ids ++ [id]) hsort hge
      simp only [if_pos hb]
      exact ⟨this.1, this.2⟩
    · have hgt : c.ids.length < block := by omega
      simp only [if_neg hb]
      constructor
      · intro kv hkv
        rcases insertSorted_mem block id c.sparse kv hkv with heq | hm
        · subst heq; exact hgt
        · exact hinv kv hm
      · exact insertSorted_sorted block id c.sparse hsort
  · intro c blocks hsort hinv
    unfold FileClusters.truncate FileClusters.Inv
    constructor
    · intro kv hkv
      have hm := List.mem_of_mem_filter hkv
      have := hinv kv hm
      have hlen : (c.ids.take blocks).length ≤ c.ids.length := by
        simp [List.length_take]
      show (List.take blocks c.ids).length < kv.1
      omega
    · exact List.Pairwise.filter _ hsort
  · intro c i
    constructor
    · intro hlt
      unfold FileClusters.get
      rw [List.getElem?_eq_getElem hlt]
    · intro hge
      unfold FileClusters.get
      rw [List.getElem?_eq_none (by simpa using hge)]

theorem C10_witness :
    (SparseSorted ⟨[4], [(3, 9)]⟩ ∧ FileClusters.Inv ⟨[4], [(3, 9)]⟩ ∧
      FileClusters.get ⟨[4], [(3, 9)]⟩ 1 = none ∧
      FileClusters.Inv (FileClusters.insert ⟨[4], [(3, 9)]⟩ 1 8) ∧
      SparseSorted (FileClusters.insert ⟨[4], [(3, 9)]⟩ 1 8)) ∧
    (FileClusters.Inv (FileClusters.truncate ⟨[4], [(3, 9)]⟩ 2).1 ∧
      SparseSorted (FileClusters.truncate ⟨[4], [(3, 9)]⟩ 2).1) := by
  refine ⟨⟨by decide, by decide, by decide, ?_⟩, ?_⟩
  · exact C10_clusters_invariant.2.1 ⟨[4], [(3, 9)]⟩ 1 8 (by decide) (by decide)
      (by decide)
  · exact C10_clusters_invariant.2.2.1 ⟨[4], [(3, 9)]⟩ 2 (by decide) (by decide)

/-! ## Path type (C6)

`bijou-core/src/fs/path.rs`: UTF-8 paths (modelled as `List Char`), the
forward component iterator (`Components::next` with its `at_start` flag and
`parse_forward`), and `Path::join`, which appends a `'/'` (unless the left
path already ends in one) followed by the right path.  Two paths "denote the
same path" when their component lists are equal. -/

inductive PComponent where
  | rootDir
  | curDir
  | parentDir
  | normal (s : List Char)
  deriving DecidableEq, Repr

/-- One step of `Components::next`: the segment before the first `'/'` and
the remainder after it. -/
def splitSlash : List Char → List Char × List Char
  | [] => ([], [])
  | ch :: rest =>
    if ch = '/' then ([], rest)
    else
      let p := splitSlash rest
      (ch :: p.1, p.2)

theorem splitSlash_snd_length (p : List Char) (h : p ≠ []) :
    (splitSlash p).2.length < p.length := by
  induction p with
  | nil => exact absurd rfl h
  | cons ch rest ih =>
    by_cases hch : ch = '/'
    · simp [splitSlash, hch]
    · simp only [splitSlash, if_neg hch, List.length_cons]
      by_cases hr : rest = []
      · subst hr
        simp [splitSlash]
      · have := ih hr
        omega

/-- `Components::parse_forward`. -/
def parseForward (comp : List Char) (atStart : Bool) : Option PComponent :=
  if comp = [] then (if atStart then some .rootDir else none)
  else if comp = ['.'] then (if atStart then some .curDir else none)
  else if comp = ['.', '.'] then some .parentDir
  else some (.normal comp)

/-- The forward component iterator, materialised as the list of components
it yields.  `atStart` is the iterator's flag: it is true only before the
first segment is parsed, and `parse_forward` sets it to false afterwards. -/
def componentsAux (p : List Char) (atStart : Bool) : List PComponent :=
  if hp : p = [] then []
  else
    match parseForward (splitSlash p).1 atStart with
    | some comp => comp :: componentsAux (splitSlash p).2 false
    | none => componentsAux (splitSlash p).2 false
termination_by p.length
decreasing_by all_goals exact splitSlash_snd_length p hp

/-- `Path::components`. -/
def components (p : List Char) : List PComponent := componentsAux p true

/-- `Path::join`: plain concatenation with a `'/'` pushed first unless the
left side already ends with one (an empty left side gets one too). -/
def pathJoin (p q : List Char) : List Char :=
  p ++ (if p.getLast? = some '/' then [] else ['/']) ++ q

/-- A path is absolute when its first component is `RootDir`. -/
def IsAbsolute (q : List Char) : Prop :=
  (components q).head? = some PComponent.rootDir

instance (q : List Char) : Decidable (IsAbsolute q) := by
  unfold IsAbsolute
  infer_instance

theorem componentsAux_cons_eq (p : List Char) (st : Bool) (h : p ≠ []) :
    componentsAux p st
      = match parseForward (splitSlash p).1 st with
        | some comp => comp :: componentsAux (splitSlash p).2 false
        | none => componentsAux (splitSlash p).2 false := by
  rw [componentsAux, dif_neg h]

theorem splitSlash_append (a b : List Char) :
    splitSlash (a ++ '/' :: b)
      = if '/' ∈ a then ((splitSlash a).1, (splitSlash a).2 ++ '/' :: b)
        else (a, b) := by
  induction a with
  | nil => simp [splitSlash]
  | cons ch a' ih =>
    by_cases hch : ch = '/'
    · subst hch
      simp [splitSlash]
    · have hstep : splitSlash ((ch :: a') ++ '/' :: b)
          = (ch :: (splitSlash (a' ++ '/' :: b)).1, (splitSlash (a' ++ '/' :: b)).2) := by
        simp [splitSlash, hch]
      have hstep2 : splitSlash (ch :: a')
          = (ch :: (splitSlash a').1, (splitSlash a').2) := by
        simp [splitSlash, hch]
      by_cases hm : '/' ∈ a'
      · have hm2 : '/' ∈ ch :: a' := List.mem_cons_of_mem _ hm
        rw [hstep, ih, if_pos hm, if_pos hm2, hstep2]
      · have hm2 : ¬ '/' ∈ ch :: a' := by
          intro hc
          rcases List.mem_cons.mp hc with hc | hc
          · exact hch hc.symm
          · exact hm hc
        rw [hstep, ih, if_neg hm, if_neg hm2]

theorem splitSlash_no_slash (a : List Char) (h : ¬ '/' ∈ a) :
    splitSlash a = (a, []) := by
  induction a with
  | nil => simp [splitSlash]
  | cons ch a' ih =>
    have hch : ¬ ch = '/' := by
      intro hc
      exact h (by simp [hc])
    have ha' : ¬ '/' ∈ a' := fun hm => h (List.mem_cons_of_mem _ hm)
    simp [splitSlash, hch, ih ha']

theorem componentsAux_nil (st : Bool) : componentsAux [] st = [] := by
  rw [componentsAux]
  simp

theorem componentsAux_slash (x : List Char) :
    componentsAux ('/' :: x) false = componentsAux x false := by
  rw [componentsAux_cons_eq ('/' :: x) false (by simp)]
  have h1 : splitSlash ('/' :: x) = ([], x) := by simp [splitSlash]
  have h2 : parseForward [] false = none := by simp [parseForward]
  rw [h1, h2]

/-- Splitting the parse at an interior `'/'`: the components of
`a ++ "/" ++ b` are those of `a` followed by those of `b` parsed with
`at_start = false`.  (When `a` is empty the flag must already be false,
since the leading separator would otherwise yield a `RootDir`.) -/
theorem componentsAux_append (a b : List Char) (st : Bool)
    (h : a = [] → st = false) :
    componentsAux (a ++ '/' :: b) st
      = componentsAux a st ++ componentsAux b false := by
  by_cases ha : a = []
  · subst ha
    rw [h rfl]
    simp only [List.nil_append, componentsAux_nil]
    exact componentsAux_slash b
  · have hne : a ++ '/' :: b ≠ [] := by simp
    have hL := componentsAux_cons_eq (a ++ '/' :: b) st hne
    have hR := componentsAux_cons_eq a st ha
    have hsplit := splitSlash_append a b
    by_cases hm : '/' ∈ a
    · rw [if_pos hm] at hsplit
      have hrec := componentsAux_append (splitSlash a).2 b false (fun _ => rfl)
      rw [hL, hR, hsplit]
      cases hparse : parseForward (splitSlash a).1 st with
      | some comp => simp [hrec]
      | none => simp [hrec]
    · rw [if_neg hm] at hsplit
      have hsa := splitSlash_no_slash a hm
      rw [hL, hR, hsplit, hsa]
      cases hparse : parseForward a st with
      | some comp => simp [componentsAux_nil]
      | none => simp [componentsAux_nil]
termination_by a.length
decreasing_by
  have := splitSlash_snd_length a ha
  omega

theorem components_slash_cons (q' : List Char) :
    components ('/' :: q') = PComponent.rootDir :: componentsAux q' false := by
  rw [components, componentsAux_cons_eq ('/' :: q') true (by simp)]
  have h1 : splitSlash ('/' :: q') = ([], q') := by simp [splitSlash]
  have h2 : parseForward [] true = some PComponent.rootDir := by
    simp [parseForward]
  rw [h1, h2]

theorem isAbsolute_shape (q : List Char) (h : IsAbsolute q) :
    ∃ q', q = '/' :: q' := by
  cases q with
  | nil =>
    rw [IsAbsolute, components, componentsAux_nil] at h
    exact absurd h (by simp)
  | cons ch q' =>
    by_cases hch : ch = '/'
    · exact ⟨q', by rw [hch]⟩
    · exfalso
      rw [IsAbsolute, components,
        componentsAux_cons_eq (ch :: q') true (by simp)] at h
      have hfst : (splitSlash (ch :: q')).1 = ch :: (splitSlash q').1 := by
        simp [splitSlash, hch]
      rw [hfst] at h
      by_cases h1 : ch :: (splitSlash q').1 = ['.']
      · rw [parseForward, if_neg (by simp), if_pos h1] at h
        simp at h
      · by_cases h2 : ch :: (splitSlash q').1 = ['.', '.']
        · rw [parseForward, if_neg (by simp), if_neg h1, if_pos h2] at h
          simp at h
        · rw [parseForward, if_neg (by simp), if_neg h1, if_neg h2] at h
          simp at h

theorem components_a_slash_slash_b :
    components ['a', '/', '/', 'b']
      = [PComponent.normal ['a'], PComponent.normal ['b']] := by
  rw [components, componentsAux_cons_eq _ _ (by simp),
    show splitSlash ['a', '/', '/', 'b'] = (['a'], ['/', 'b']) from rfl,
    show parseForward ['a'] true = some (PComponent.normal ['a']) from rfl]
  rw [componentsAux_cons_eq _ _ (by simp),
    show splitSlash ['/', 'b'] = ([], ['b']) from rfl,
    show parseForward [] false = none from rfl]
  rw [componentsAux_cons_eq _ _ (by simp),
    show splitSlash ['b'] = (['b'], []) from rfl,
    show parseForward ['b'] false = some (PComponent.normal ['b']) from rfl]
  rw [componentsAux_nil]

theorem components_slash_b :
    components ['/', 'b'] = [PComponent.rootDir, PComponent.normal ['b']] := by
  rw [components_slash_cons]
  rw [componentsAux_cons_eq _ _ (by simp),
    show splitSlash ['b'] = (['b'], []) from rfl,
    show parseForward ['b'] false = some (PComponent.normal ['b']) from rfl]
  rw [componentsAux_nil]

/-- C6 counterexample: joining the relative path `a` with the absolute path
`/b` yields `a//b`, whose components are `[a, b]`, not the components
`[RootDir, b]` of `/b`: `join` with an absolute path does not reset. -/
theorem C6_counterexample :
    components (pathJoin ['a'] ['/', 'b']) ≠ components ['/', 'b'] ∧
    components (pathJoin ['a'] ['/', 'b'])
      = [PComponent.normal ['a'], PComponent.normal ['b']] ∧
    components ['/', 'b'] = [PComponent.rootDir, PComponent.normal ['b']] := by
  have hj : pathJoin ['a'] ['/', 'b'] = ['a', '/', '/', 'b'] := rfl
  refine ⟨?_, by rw [hj]; exact components_a_slash_slash_b, components_slash_b⟩
  rw [hj, components_a_slash_slash_b, components_slash_b]
  simp

/-- C6 (amended): joining with an absolute path `q` does not reset to `q`;
instead the components of `p.join(q)` are the components of `p` (a single
`RootDir` when `p` is empty) followed by the components of `q` with its
leading `RootDir` dropped.  In particular `p.join(q)` denotes the same path
as `q` exactly when `p` has no components or only a `RootDir`. -/
theorem C6_join_absolute (p q : List Char) (habs : IsAbsolute q) :
    components (pathJoin p q)
      = (if p = [] then [PComponent.rootDir] else components p)
          ++ (components q).drop 1 := by
  obtain ⟨q', rfl⟩ := isAbsolute_shape q habs
  have hdrop : (components ('/' :: q')).drop 1 = componentsAux q' false := by
    rw [components_slash_cons]
    rfl
  by_cases hp : p = []
  · subst hp
    rw [if_pos rfl, hdrop]
    have hjoin : pathJoin [] ('/' :: q') = '/' :: '/' :: q' := by
      simp [pathJoin]
    rw [hjoin, components_slash_cons, componentsAux_slash]
    rfl
  · rw [if_neg hp, hdrop]
    by_cases hend : p.getLast? = some '/'
    · have hjoin : pathJoin p ('/' :: q') = p ++ '/' :: q' := by
        simp [pathJoin, hend]
      obtain ⟨p0, hdecomp⟩ : ∃ p0, p = p0 ++ ['/'] := by
        refine ⟨p.dropLast, ?_⟩
        have hlast := List.getLast?_eq_getLast p hp
        rw [hlast] at hend
        have hgl : p.getLast hp = '/' := by
          injection hend
        conv_lhs => rw [← List.dropLast_append_getLast hp]
        rw [hgl]
      by_cases hp0 : p0 = []
      · rw [hp0] at hdecomp
        simp only [List.nil_append] at hdecomp
        subst hdecomp
        rw [hjoin]
        have hlist : ['/'] ++ '/' :: q' = '/' :: '/' :: q' := rfl
        rw [hlist, components_slash_cons, componentsAux_slash,
          components_slash_cons, componentsAux_nil]
        rfl
      · subst hdecomp
        rw [hjoin]
        have hassoc : (p0 ++ ['/']) ++ '/' :: q' = p0 ++ '/' :: ('/' :: q') := by
          simp
        rw [hassoc, components,
          componentsAux_append p0 ('/' :: q') true (fun h => absurd h hp0),
          componentsAux_slash]
        have hP : components (p0 ++ ['/'])
            = componentsAux p0 true ++ componentsAux [] false := by
          rw [components]
          exact componentsAux_append p0 [] true (fun h => absurd h hp0)
        rw [hP, componentsAux_nil, List.append_nil]
    · have hjoin : pathJoin p ('/' :: q') = p ++ '/' :: ('/' :: q') := by
        simp [pathJoin, hend]
      rw [hjoin, components,
        componentsAux_append p ('/' :: q') true (fun h => absurd h hp),
        componentsAux_slash, components]

/-! ## The inode layer's key-value state (`bijou/src/bijou/mod.rs`)

The RocksDB key layout of `db.rs` is modelled with one association list per
key shape: `"f"·id → FileMeta`, `"f"·id·":"·name → DirItem`,
`"f"·id·"s" → symlink target` and `"f"·id·"x"·name → xattr value`, plus the
set of raw-backend blobs.  FileIds are `Nat`, timestamps are `Nat` (`now` is
passed in for `Utc::now()`).  This models the configuration without filename
encryption (`file_name_key = None`), under which `child_key` is the plain
name; the nlinks bookkeeping is identical in both configurations.  A RocksDB
`WriteBatch` is a list of buffered operations applied in order at `commit`;
reads during batch construction go to the committed state, exactly as
`DatabaseKey::get`/`exists` read the database and never the batch. -/

inductive FileKind where
  | file
  | symlink
  | directory
  deriving DecidableEq, Repr

/-- `FileMeta` (the persisted fields; `size` is never persisted). -/
structure FMeta where
  id : Nat
  kind : FileKind
  accessed : Nat
  modified : Nat
  nlinks : Nat
  perms : Option (Nat × Nat × Nat)
  deriving DecidableEq, Repr

/-- `DirItem`. -/
structure DirItemM where
  id : Nat
  kind : FileKind
  deriving DecidableEq, Repr

def alGet {κ ν : Type} [DecidableEq κ] : List (κ × ν) → κ → Option ν
  | [], _ => none
  | kv :: rest, k => if kv.1 = k then some kv.2 else alGet rest k

def alPut {κ ν : Type} [DecidableEq κ] : List (κ × ν) → κ → ν → List (κ × ν)
  | [], k, v => [(k, v)]
  | kv :: rest, k, v => if kv.1 = k then (k, v) :: rest else kv :: alPut rest k v

def alDel {κ ν : Type} [DecidableEq κ] (l : List (κ × ν)) (k : κ) : List (κ × ν) :=
  l.filter (fun kv => ¬ kv.1 = k)

/-- The committed key-value store plus the raw backend's blob set. -/
structure Store where
  metas : List (Nat × FMeta)
  entries : List ((Nat × List Char) × DirItemM)
  symlinks : List (Nat × List Char)
  xattrs : List ((Nat × List Char) × List Nat)
  raw : List Nat
  deriving DecidableEq, Repr

/-- One buffered `WriteBatch` operation. -/
inductive BOp where
  | putMeta (id : Nat) (m : FMeta)
  | delMeta (id : Nat)
  | putEntry (parent : Nat) (name : List Char) (item : DirItemM)
  | delEntry (parent : Nat) (name : List Char)
  | putSym (id : Nat) (target : List Char)
  | delSym (id : Nat)
  | delXattr (id : Nat) (name : List Char)
  deriving DecidableEq, Repr

def applyOp (s : Store) : BOp → Store
  | .putMeta id m => { s with metas := alPut s.metas id m }
  | .delMeta id => { s with metas := alDel s.metas id }
  | .putEntry parent name item =>
      { s with entries := alPut s.entries (parent, name) item }
  | .delEntry parent name => { s with entries := alDel s.entries (parent, name) }
  | .putSym id target => { s with symlinks := alPut s.symlinks id target }
  | .delSym id => { s with symlinks := alDel s.symlinks id }
  | .delXattr id name => { s with xattrs := alDel s.xattrs (id, name) }

/-- `BatchWrapper::commit`: apply the buffered operations in order. -/
def applyBatch (s : Store) (b : List BOp) : Store := b.foldl applyOp s

/-- `Bijou::lookup`: point-get of the directory-entry key, `NotFound` when
absent. -/
def lookup (s : Store) (parent : Nat) (name : List Char) : Except Err Nat :=
  match alGet s.entries (parent, name) with
  | some item => .ok item.id
  | none => .error .notFound

/-- `Bijou::get_raw_meta`. -/
def getMeta (s : Store) (id : Nat) : Except Err FMeta :=
  match alGet s.metas id with
  | some m => .ok m
  | none => .error .notFound

/-- `Bijou::read_link`: `InvalidInput` when the file is not a symlink,
otherwise the stored target (`NotFound` if its key is missing). -/
def read_link (s : Store) (id : Nat) : Except Err (List Char) :=
  match getMeta s id with
  | .error e => .error e
  | .ok meta =>
    if meta.kind ≠ FileKind.symlink then .error .invalidInput
    else
      match alGet s.symlinks id with
      | some t => .ok t
      | none => .error .notFound

/-! ## Path resolution (C4)

`Bijou::resolve_inner` keeps a stack of FileIds and a mutable symlink-hop
counter `depth`, shared across the whole resolution; each hop increments it
and fails `FilesystemLoop` once it exceeds `SYMBOLIC_MAX_DEPTH`.  The
embedding returns the resolved id together with the final counter, and
carries a fuel argument bounding the symlink-recursion nesting; fuel
`maxD + 1 - depth` always suffices (each nested call enters with a strictly
larger counter, which never exceeds `maxD`), and `Err.panicked` marks the
unreachable out-of-fuel case. -/

def SYMBOLIC_MAX_DEPTH : Nat := 40

def resolveGo (s : Store) (maxD : Nat) :
    Nat → List Nat → List PComponent → Nat → Except Err (Nat × Nat)
  | _, stack, [], depth =>
    match stack.getLast? with
    | some top => .ok (top, depth)
    | none => .error .panicked
  | fuel, stack, .rootDir :: rest, depth =>
    resolveGo s maxD fuel (stack.take 1) rest depth
  | fuel, stack, .curDir :: rest, depth =>
    resolveGo s maxD fuel stack rest depth
  | fuel, stack, .parentDir :: rest, depth =>
    resolveGo s maxD fuel (if 1 < stack.length then stack.dropLast else stack)
      rest depth
  | fuel, stack, .normal name :: rest, depth =>
    match stack.getLast? with
    | none => .error .panicked
    | some top =>
      match lookup s top name with
      | .error e => .error e
      | .ok id =>
        match read_link s id with
        | .ok target =>
          if maxD < depth + 1 then .error .filesystemLoop
          else if hf : fuel = 0 then .error .panicked
          else
            match resolveGo s maxD (fuel - 1) stack (components target) (depth + 1) with
            | .error e => .error e
            | .ok (id2, depth2) =>
              resolveGo s maxD fuel (stack ++ [id2]) rest depth2
        | .error e =>
          if e = Err.invalidInput then
            resolveGo s maxD fuel (stack ++ [id]) rest depth
          else .error e
termination_by fuel _ comps _ => (fuel, comps.length)
decreasing_by
  all_goals simp_wf
  · apply Prod.Lex.right
    omega
  · apply Prod.Lex.right
    omega
  · apply Prod.Lex.right
    omega
  · apply Prod.Lex.left
    omega
  · apply Prod.Lex.right
    omega
  · apply Prod.Lex.right
    omega

/-- `resolve_inner` with the loop bound generalised to `maxD`, started like
`Bijou::resolve`: stack `[ROOT]`, depth `0`, and sufficient fuel. -/
def resolveD (s : Store) (maxD : Nat) (p : List Char) : Except Err (Nat × Nat) :=
  resolveGo s maxD (maxD + 1) [0] (components p) 0

/-- `Bijou::resolve` (the program's entry point, `maxD = 40`). -/
def resolve (s : Store) (p : List Char) : Except Err Nat :=
  (resolveD s SYMBOLIC_MAX_DEPTH p).map (fun pr => pr.1)

/-- The hop counter only grows, and never beyond `maxD` on a successful
resolution entered within the bound. -/
theorem resolveGo_depth_facts (s : Store) (maxD fuel : Nat) (stack : List Nat)
    (comps : List PComponent) (depth r d : Nat)
    (h : resolveGo s maxD fuel stack comps depth = .ok (r, d)) :
    depth ≤ d ∧ (depth ≤ maxD → d ≤ maxD) := by
  cases comps with
  | nil =>
    simp only [resolveGo] at h
    cases hl : stack.getLast? with
    | none =>
      simp only [hl] at h
      exact Except.noConfusion h
    | some top =>
      simp only [hl] at h
      have heq := Except.ok.inj h
      have h1 : top = r := congrArg Prod.fst heq
      have h2 : depth = d := congrArg Prod.snd heq
      omega
  | cons c rest =>
    cases c with
    | rootDir =>
      simp only [resolveGo] at h
      exact resolveGo_depth_facts s maxD fuel (stack.take 1) rest depth r d h
    | curDir =>
      simp only [resolveGo] at h
      exact resolveGo_depth_facts s maxD fuel stack rest depth r d h
    | parentDir =>
      simp only [resolveGo] at h
      exact resolveGo_depth_facts s maxD fuel
        (if 1 < stack.length then stack.dropLast else stack) rest depth r d h
    | normal name =>
      simp only [resolveGo] at h
      cases hl : stack.getLast? with
      | none =>
        simp only [hl] at h
        exact Except.noConfusion h
      | some top =>
        simp only [hl] at h
        cases hlk : lookup s top name with
        | error e =>
          simp only [hlk] at h
          exact Except.noConfusion h
        | ok id =>
          simp only [hlk] at h
          cases hrl : read_link s id with
          | ok target =>
            simp only [hrl] at h
            by_cases hd : maxD < depth + 1
            · simp only [if_pos hd] at h
              exact Except.noConfusion h
            · simp only [if_neg hd] at h
              by_cases hf : fuel = 0
              · simp only [dif_pos hf] at h
                exact Except.noConfusion h
              · simp only [dif_neg hf] at h
                cases hnest : resolveGo s maxD (fuel - 1) stack (components target)
                    (depth + 1) with
                | error e =>
                  simp only [hnest] at h
                  exact Except.noConfusion h
                | ok pr =>
                  obtain ⟨id2, depth2⟩ := pr
                  simp only [hnest] at h
                  have h1 := resolveGo_depth_facts s maxD (fuel - 1) stack
                    (components target) (depth + 1) id2 depth2 hnest
                  have h2 := resolveGo_depth_facts s maxD fuel
                    (stack ++ [id2]) rest depth2 r d h
                  constructor
                  · omega
                  · intro hdm
                    have := h1.2 (by omega)
                    exact h2.2 (by omega)
          | error e =>
            simp only [hrl] at h
            by_cases he : e = Err.invalidInput
            · simp only [if_pos he] at h
              exact resolveGo_depth_facts s maxD fuel (stack ++ [id]) rest depth
                r d h
            · simp only [if_neg he] at h
              exact Except.noConfusion h
termination_by (fuel, comps.length)

/-- The result does not depend on the fuel, as long as the fuel covers the
remaining hop budget. -/
theorem resolveGo_fuel_irrel (s : Store) (maxD f1 f2 : Nat) (stack : List Nat)
    (comps : List PComponent) (depth : Nat) (hdep : depth ≤ maxD)
    (h1 : maxD + 1 ≤ f1 + depth) (h2 : maxD + 1 ≤ f2 + depth) :
    resolveGo s maxD f1 stack comps depth
      = resolveGo s maxD f2 stack comps depth := by
  cases comps with
  | nil => simp only [resolveGo]
  | cons c rest =>
    cases c with
    | rootDir =>
      simp only [resolveGo]
      exact resolveGo_fuel_irrel s maxD f1 f2 (stack.take 1) rest depth hdep h1 h2
    | curDir =>
      simp only [resolveGo]
      exact resolveGo_fuel_irrel s maxD f1 f2 stack rest depth hdep h1 h2
    | parentDir =>
      simp only [resolveGo]
      exact resolveGo_fuel_irrel s maxD f1 f2
        (if 1 < stack.length then stack.dropLast else stack) rest depth hdep h1 h2
    | normal name =>
      simp only [resolveGo]
      cases hl : stack.getLast? with
      | none => simp only [hl]
      | some top =>
        simp only [hl]
        cases hlk : lookup s top name with
        | error e => simp only [hlk]
        | ok id =>
          simp only [hlk]
          cases hrl : read_link s id with
          | ok target =>
            simp only [hrl]
            by_cases hd : maxD < depth + 1
            · simp only [if_pos hd]
            · simp only [if_neg hd]
              have hf1 : ¬ f1 = 0 := by omega
              have hf2 : ¬ f2 = 0 := by omega
              simp only [dif_neg hf1, dif_neg hf2]
              have hnest := resolveGo_fuel_irrel s maxD (f1 - 1) (f2 - 1) stack
                (components target) (depth + 1) (by omega) (by omega) (by omega)
              rw [hnest]
              cases hres : resolveGo s maxD (f2 - 1) stack (components target)
                  (depth + 1) with
              | error e => simp only [hres]
              | ok pr =>
                obtain ⟨id2, depth2⟩ := pr
                simp only [hres]
                have hfacts := resolveGo_depth_facts s maxD (f2 - 1) stack
                  (components target) (depth + 1) id2 depth2 hres
                exact resolveGo_fuel_irrel s maxD f1 f2
                  (stack ++ [id2]) rest depth2 (hfacts.2 (by omega))
                  (by omega) (by omega)
          | error e =>
            simp only [hrl]
            by_cases he : e = Err.invalidInput
            · simp only [if_pos he]
              exact resolveGo_fuel_irrel s maxD f1 f2 (stack ++ [id]) rest depth
                hdep h1 h2
            · simp only [if_neg he]
termination_by (f1, comps.length)

/-- Runs with a smaller loop bound `M ≤ M'` agree with the `M'`-run as long
as the final hop count fits in `M`, and fail with `FilesystemLoop` as soon
as it does not. -/
theorem resolveGo_budget (s : Store) (M M' fuel : Nat) (stack : List Nat)
    (comps : List PComponent) (depth r d : Nat) (hMM : M ≤ M')
    (hdep : depth ≤ M)
    (hok : resolveGo s M' fuel stack comps depth = .ok (r, d)) :
    (d ≤ M → resolveGo s M fuel stack comps depth = .ok (r, d)) ∧
    (M < d → resolveGo s M fuel stack comps depth = .error .filesystemLoop) := by
  cases comps with
  | nil =>
    simp only [resolveGo] at hok ⊢
    cases hl : stack.getLast? with
    | none =>
      simp only [hl] at hok
      exact Except.noConfusion hok
    | some top =>
      simp only [hl] at hok ⊢
      have heq := Except.ok.inj hok
      have he1 : top = r := congrArg Prod.fst heq
      have he2 : depth = d := congrArg Prod.snd heq
      constructor
      · intro _
        rw [he1, he2]
      · intro hlt
        omega
  | cons c rest =>
    cases c with
    | rootDir =>
      simp only [resolveGo] at hok ⊢
      exact resolveGo_budget s M M' fuel (stack.take 1) rest depth r d hMM hdep hok
    | curDir =>
      simp only [resolveGo] at hok ⊢
      exact resolveGo_budget s M M' fuel stack rest depth r d hMM hdep hok
    | parentDir =>
      simp only [resolveGo] at hok ⊢
      exact resolveGo_budget s M M' fuel
        (if 1 < stack.length then stack.dropLast else stack) rest depth r d hMM
        hdep hok
    | normal name =>
      simp only [resolveGo] at hok ⊢
      cases hl : stack.getLast? with
      | none =>
        simp only [hl] at hok
        exact Except.noConfusion hok
      | some top =>
        simp only [hl] at hok ⊢
        cases hlk : lookup s top name with
        | error e =>
          simp only [hlk] at hok
          exact Except.noConfusion hok
        | ok id =>
          simp only [hlk] at hok ⊢
          cases hrl : read_link s id with
          | ok target =>
            simp only [hrl] at hok ⊢
            by_cases hdM' : M' < depth + 1
            · simp only [if_pos hdM'] at hok
              exact Except.noConfusion hok
            · simp only [if_neg hdM'] at hok
              by_cases hf : fuel = 0
              · simp only [dif_pos hf] at hok
                exact Except.noConfusion hok
              · simp only [dif_neg hf] at hok
                cases hnest : resolveGo s M' (fuel - 1) stack (components target)
                    (depth + 1) with
                | error e =>
                  simp only [hnest] at hok
                  exact Except.noConfusion hok
                | ok pr =>
                  obtain ⟨id2, depth2⟩ := pr
                  simp only [hnest] at hok
                  have hb1 := resolveGo_depth_facts s M' (fuel - 1) stack
                    (components target) (depth + 1) id2 depth2 hnest
                  have hb2 := resolveGo_depth_facts s M' fuel
                    (stack ++ [id2]) rest depth2 r d hok
                  by_cases hdM : M < depth + 1
                  · simp only [if_pos hdM]
                    constructor
                    · intro hle
                      omega
                    · intro _
                      trivial
                  · simp only [if_neg hdM, dif_neg hf]
                    by_cases hd2 : depth2 ≤ M
                    · have hn := resolveGo_budget s M M' (fuel - 1) stack
                        (components target) (depth + 1) id2 depth2 hMM
                        (by omega) hnest
                      rw [hn.1 hd2]
                      exact resolveGo_budget s M M' fuel (stack ++ [id2])
                        rest depth2 r d hMM hd2 hok
                    · have hn := resolveGo_budget s M M' (fuel - 1) stack
                        (components target) (depth + 1) id2 depth2 hMM
                        (by omega) hnest
                      rw [hn.2 (by omega)]
                      constructor
                      · intro hle
                        omega
                      · intro _
                        rfl
          | error e =>
            simp only [hrl] at hok ⊢
            by_cases he : e = Err.invalidInput
            · simp only [if_pos he] at hok ⊢
              exact resolveGo_budget s M M' fuel (stack ++ [id]) rest depth r d
                hMM hdep hok
            · simp only [if_neg he] at hok
              exact Except.noConfusion hok
termination_by (fuel, comps.length)

/-- A run that fails `FilesystemLoop` under a loop bound `M'` also fails
`FilesystemLoop` under any smaller bound `M` (entered within `M`): the two
runs follow the identical trajectory until the shared hop counter first
exceeds `M`, which happens no later than exceeding `M'`. -/
theorem resolveGo_loop_mono (s : Store) (M M' fuel : Nat) (stack : List Nat)
    (comps : List PComponent) (depth : Nat) (hMM : M ≤ M') (hdep : depth ≤ M)
    (h : resolveGo s M' fuel stack comps depth = .error .filesystemLoop) :
    resolveGo s M fuel stack comps depth = .error .filesystemLoop := by
  cases comps with
  | nil =>
    simp only [resolveGo] at h ⊢
    cases hl : stack.getLast? with
    | none =>
      simp only [hl] at h ⊢
      exact Err.noConfusion (Except.error.inj h)
    | some top =>
      simp only [hl] at h
      exact Except.noConfusion h
  | cons c rest =>
    cases c with
    | rootDir =>
      simp only [resolveGo] at h ⊢
      exact resolveGo_loop_mono s M M' fuel (stack.take 1) rest depth hMM hdep h
    | curDir =>
      simp only [resolveGo] at h ⊢
      exact resolveGo_loop_mono s M M' fuel stack rest depth hMM hdep h
    | parentDir =>
      simp only [resolveGo] at h ⊢
      exact resolveGo_loop_mono s M M' fuel
        (if 1 < stack.length then stack.dropLast else stack) rest depth hMM
        hdep h
    | normal name =>
      simp only [resolveGo] at h ⊢
      cases hl : stack.getLast? with
      | none =>
        simp only [hl] at h ⊢
        exact Err.noConfusion (Except.error.inj h)
      | some top =>
        simp only [hl] at h ⊢
        cases hlk : lookup s top name with
        | error e =>
          simp only [hlk] at h ⊢
          exact h
        | ok id =>
          simp only [hlk] at h ⊢
          cases hrl : read_link s id with
          | ok target =>
            simp only [hrl] at h ⊢
            by_cases hdM' : M' < depth + 1
            · rw [if_pos (show M < depth + 1 by omega)]
            · simp only [if_neg hdM'] at h
              by_cases hf : fuel = 0
              · simp only [dif_pos hf] at h
                exact Err.noConfusion (Except.error.inj h)
              · simp only [dif_neg hf] at h
                by_cases hdM : M < depth + 1
                · rw [if_pos hdM]
                · simp only [if_neg hdM, dif_neg hf]
                  cases hnest : resolveGo s M' (fuel - 1) stack
                      (components target) (depth + 1) with
                  | error e =>
                    simp only [hnest] at h
                    have he : e = Err.filesystemLoop := Except.error.inj h
                    subst he
                    have hn := resolveGo_loop_mono s M M' (fuel - 1) stack
                      (components target) (depth + 1) hMM (by omega) hnest
                    simp only [hn]
                  | ok pr =>
                    obtain ⟨id2, depth2⟩ := pr
                    simp only [hnest] at h
                    have hb := resolveGo_budget s M M' (fuel - 1) stack
                      (components target) (depth + 1) id2 depth2 hMM (by omega)
                      hnest
                    by_cases hd2 : depth2 ≤ M
                    · simp only [hb.1 hd2]
                      exact resolveGo_loop_mono s M M' fuel (stack ++ [id2])
                        rest depth2 hMM hd2 h
                    · simp only [hb.2 (by omega)]
          | error e =>
            simp only [hrl] at h ⊢
            by_cases he : e = Err.invalidInput
            · simp only [if_pos he] at h ⊢
              exact resolveGo_loop_mono s M M' fuel (stack ++ [id]) rest depth
                hMM hdep h
            · simp only [if_neg he] at h ⊢
              exact h
termination_by (fuel, comps.length)

/-- C4: path resolution follows at most 40 symlink hops
(`SYMBOLIC_MAX_DEPTH`).  Measured against a run with the loop bound relaxed
to any `M ≥ 40`: if that run succeeds in `hops` hops, then `hops ≤ M`, the
real `resolve` (bound 40) succeeds with the same result whenever
`hops ≤ 40` — in particular it never returns `FilesystemLoop` for a path
resolvable within 40 hops — and fails with `FilesystemLoop` whenever the
resolution needed a 41st hop; and if even the relaxed run fails
`FilesystemLoop` (a longer chain, or a symlink cycle, needs more than `M`
hops), the real `resolve` fails with `FilesystemLoop` as well.  Every path
whose resolution requires a 41st hop is of one of these two kinds for each
`M`, so `resolve` fails `FilesystemLoop` on all of them. -/
theorem C4_symlink_depth_bound (s : Store) (p : List Char) (M : Nat)
    (hM : SYMBOLIC_MAX_DEPTH ≤ M) :
    (∀ r hops, resolveD s M p = .ok (r, hops) →
      hops ≤ M ∧
      (hops ≤ SYMBOLIC_MAX_DEPTH → resolve s p = .ok r) ∧
      (SYMBOLIC_MAX_DEPTH < hops → resolve s p = .error .filesystemLoop)) ∧
    (resolveD s M p = .error .filesystemLoop →
      resolve s p = .error .filesystemLoop) := by
  have hfuel := resolveGo_fuel_irrel s SYMBOLIC_MAX_DEPTH
    (M + 1) (SYMBOLIC_MAX_DEPTH + 1) [0] (components p) 0
    (by omega) (by omega) (by omega)
  constructor
  · intro r hops h
    rw [resolveD] at h
    have hfacts := resolveGo_depth_facts s M (M + 1) [0] (components p) 0 r
      hops h
    have hbud := resolveGo_budget s SYMBOLIC_MAX_DEPTH M (M + 1) [0]
      (components p) 0 r hops hM (by omega) h
    refine ⟨hfacts.2 (by omega), ?_, ?_⟩
    · intro hle
      rw [resolve, resolveD, ← hfuel, hbud.1 hle]
      rfl
    · intro hgt
      rw [resolve, resolveD, ← hfuel, hbud.2 hgt]
      rfl
  · intro h
    rw [resolveD] at h
    have hmono := resolveGo_loop_mono s SYMBOLIC_MAX_DEPTH M (M + 1) [0]
      (components p) 0 hM (by omega) h
    rw [resolve, resolveD, ← hfuel, hmono]
    rfl

/-- Concrete store for the C4 witness: `/a` is a symlink to `b`, a regular
file with id 2. -/
def c4Store : Store where
  metas := [(0, ⟨0, .directory, 0, 0, 3, none⟩),
    (1, ⟨1, .symlink, 0, 0, 1, none⟩), (2, ⟨2, .file, 0, 0, 1, none⟩)]
  entries := [((0, ['a']), ⟨1, .symlink⟩), ((0, ['b']), ⟨2, .file⟩)]
  symlinks := [(1, ['b'])]
  xattrs := []
  raw := [2]

theorem C4_witness :
    SYMBOLIC_MAX_DEPTH ≤ SYMBOLIC_MAX_DEPTH + 1 ∧
    resolveD c4Store (SYMBOLIC_MAX_DEPTH + 1) ['/', 'a'] = .ok (2, 1) ∧
    1 ≤ SYMBOLIC_MAX_DEPTH ∧ resolve c4Store ['/', 'a'] = .ok 2 := by
  have hcomp : components ['/', 'a'] = [PComponent.rootDir, PComponent.normal ['a']] := by
    rw [components_slash_cons]
    rw [componentsAux_cons_eq _ _ (by simp),
      show splitSlash ['a'] = (['a'], []) from rfl,
      show parseForward ['a'] false = some (PComponent.normal ['a']) from rfl]
    rw [componentsAux_nil]
  have hcompb : components ['b'] = [PComponent.normal ['b']] := by
    rw [components, componentsAux_cons_eq _ _ (by simp),
      show splitSlash ['b'] = (['b'], []) from rfl,
      show parseForward ['b'] true = some (PComponent.normal ['b']) from rfl]
    rw [componentsAux_nil]
  have hok : resolveD c4Store (SYMBOLIC_MAX_DEPTH + 1) ['/', 'a'] = .ok (2, 1) := by
    rw [resolveD, hcomp]
    simp [resolveGo, lookup, read_link, getMeta, alGet, c4Store, hcompb,
      SYMBOLIC_MAX_DEPTH]
  refine ⟨by decide, hok, by decide, ?_⟩
  exact (((C4_symlink_depth_bound c4Store ['/', 'a'] (SYMBOLIC_MAX_DEPTH + 1)
    (by decide)).1 2 1 hok).2.1) (by decide)

/-! ## Inode-layer mutations (C3, C8)

`Bijou::make_node`, `Bijou::link`, `Bijou::unlink_inner`/`unlink` and
`Bijou::rename`, with the fresh id of `allocate_id` and `Utc::now()` passed
as parameters.  All reads (`get`, `exists`, `read_dir`) go to the committed
store; writes are buffered in the batch and applied at `commit`, mirroring
RocksDB `WriteBatch` semantics. -/

def dotName : List Char := ['.']

def ddName : List Char := ['.', '.']

/-- Number of directory-entry keys of directory `d`, including `.` and `..`
(`read_dir` iterates exactly these keys, so `reset().nth(2).is_some()` is
`3 ≤ dirEntryCount`). -/
def dirEntryCount (s : Store) (d : Nat) : Nat :=
  (s.entries.filter (fun e => e.1.1 = d)).length

/-- Number of sub-directories of `d`: entries other than `.`/`..` whose
`DirItem.kind` is `Directory`. -/
def subdirCount (s : Store) (d : Nat) : Nat :=
  (s.entries.filter (fun e =>
    e.1.1 = d ∧ ¬ e.1.2 = dotName ∧ ¬ e.1.2 = ddName
      ∧ e.2.kind = FileKind.directory)).length

/-- The C3 invariant: every directory's persisted `nlinks` is `2 +` its
number of sub-directories. -/
def dirNlinksOk (s : Store) : Prop :=
  ∀ kv ∈ s.metas, kv.2.kind = FileKind.directory →
    kv.2.nlinks = 2 + subdirCount s kv.1

instance (s : Store) : Decidable (dirNlinksOk s) := by
  unfold dirNlinksOk
  infer_instance

/-- `Bijou::make_node`. -/
def make_node (s : Store) (parent : Nat) (name : List Char) (kind : FileKind)
    (symlink : Option (List Char)) (perms : Option (Nat × Nat × Nat))
    (now newId : Nat) : Except Err (Store × FMeta) :=
  if (alGet s.entries (parent, name)).isSome then .error .alreadyExists
  else
    match alGet s.metas parent with
    | none => .error .notFound
    | some parent_meta =>
      let parent_meta' := { parent_meta with
        modified := now,
        nlinks := parent_meta.nlinks + (if kind = .directory then 1 else 0) }
      let meta : FMeta := ⟨newId, kind, now, now,
        (if kind = .directory then 2 else 1), perms⟩
      let batch2 : List BOp := [.putMeta parent parent_meta', .putMeta newId meta]
      let step : Except Err (List BOp) :=
        match kind with
        | .directory => .ok (batch2 ++ [.putEntry newId dotName ⟨newId, .directory⟩,
            .putEntry newId ddName ⟨parent, .directory⟩])
        | .symlink =>
          match symlink with
          | none => .error .invalidInput
          | some target => .ok (batch2 ++ [.putSym newId target])
        | .file => .ok batch2
      match step with
      | .error e => .error e
      | .ok batch3 =>
        let s' := applyBatch s (batch3 ++ [.putEntry parent name ⟨newId, kind⟩])
        .ok ((if kind = .file then { s' with raw := s'.raw ++ [newId] } else s'),
          meta)

/-- `Bijou::link` (hard link; fails on directories, and does not touch the
parent's times). -/
def linkOp (s : Store) (file parent : Nat) (name : List Char) :
    Except Err (Store × FMeta) :=
  match alGet s.metas file with
  | none => .error .notFound
  | some meta =>
    if meta.kind = .directory then .error .invalidInput
    else
      let meta' := { meta with nlinks := meta.nlinks + 1 }
      if (alGet s.entries (parent, name)).isSome then .error .alreadyExists
      else
        .ok (applyBatch s [.putMeta file meta',
          .putEntry parent name ⟨file, meta.kind⟩], meta')

/-- `Bijou::unlink_inner`: buffers its deletions into `batch`; only the raw
backend unlink is an immediate side effect (threaded through `raw`). -/
def unlink_inner (s : Store) (raw : List Nat) (batch : List BOp)
    (parent : Nat) (name : List Char) (now : Nat) :
    Except Err (List BOp × List Nat × Option Nat) :=
  match alGet s.entries (parent, name) with
  | none => .error .notFound
  | some item =>
    match alGet s.metas item.id with
    | none => .error .notFound
    | some meta =>
      if meta.kind = FileKind.directory ∧ 3 ≤ dirEntryCount s item.id then
        .error .notEmpty
      else
        match alGet s.metas parent with
        | none => .error .notFound
        | some parent_meta =>
          let parent_meta' := { parent_meta with
            modified := now,
            nlinks := parent_meta.nlinks
              - (if meta.kind = FileKind.directory then 1 else 0) }
          let batch := batch ++ [.putMeta parent parent_meta',
            .delEntry parent name]
          if meta.kind = FileKind.directory then
            .ok (batch ++ [.delEntry item.id dotName, .delEntry item.id ddName,
              .delMeta item.id], raw, some item.id)
          else
            if meta.nlinks = 0 then .error .panicked
            else if meta.nlinks - 1 = 0 then
              let batch := batch ++ [.delMeta item.id]
                ++ (s.xattrs.filter (fun kv => kv.1.1 = item.id)).map
                    (fun kv => BOp.delXattr kv.1.1 kv.1.2)
              if meta.kind = FileKind.symlink then
                .ok (batch ++ [.delSym item.id], raw, some item.id)
              else
                .ok (batch, raw.filter (fun i => ¬ i = item.id), some item.id)
            else
              .ok (batch ++ [.putMeta item.id
                { meta with nlinks := meta.nlinks - 1 }], raw, none)

/-- `Bijou::unlink`: run `unlink_inner` on a fresh batch and commit it; an
error leaves the store untouched (the batch is dropped uncommitted). -/
def unlinkOp (s : Store) (parent : Nat) (name : List Char) (now : Nat) :
    Except Err (Store × Option Nat) :=
  match unlink_inner s s.raw [] parent name now with
  | .error e => .error e
  | .ok (batch, raw, removed) =>
    .ok ({ applyBatch s batch with raw := raw }, removed)

/-- The store after `unlink`, unchanged when `unlink` fails. -/
def unlinkStore (s : Store) (parent : Nat) (name : List Char) (now : Nat) :
    Store :=
  match unlinkOp s parent name now with
  | .ok p => p.1
  | .error _ => s

/-- `Bijou::rename`.  Note that every `get_raw_meta` during batch
construction reads the committed store, never the batch under
construction. -/
def rename (s : Store) (parent : Nat) (name : List Char) (new_parent : Nat)
    (new_name : List Char) (now : Nat) : Except Err (Store × Option Nat) :=
  if parent = new_parent ∧ name = new_name then .ok (s, none)
  else
    match alGet s.entries (parent, name) with
    | none => .error .notFound
    | some dir_item =>
      match alGet s.metas dir_item.id with
      | none => .error .notFound
      | some meta =>
        let step : Except Err (List BOp × List Nat × Option Nat) :=
          if (alGet s.entries (new_parent, new_name)).isSome then
            unlink_inner s s.raw [] new_parent new_name now
          else .ok ([], s.raw, none)
        match step with
        | .error e => .error e
        | .ok (batch, raw, removed) =>
          let batch := batch ++ [.delEntry parent name,
            .putEntry new_parent new_name dir_item]
          let batch := if meta.kind = FileKind.directory then
              batch ++ [.putEntry dir_item.id ddName ⟨new_parent, .directory⟩]
            else batch
          match alGet s.metas parent with
          | none => .error .notFound
          | some parent_meta =>
            let parent_meta' := { parent_meta with
              nlinks := parent_meta.nlinks
                - (if meta.kind = FileKind.directory then 1 else 0),
              modified := now }
            match alGet s.metas new_parent with
            | none => .error .notFound
            | some np_meta =>
              let np_meta' := { np_meta with
                nlinks := np_meta.nlinks
                  + (if meta.kind = FileKind.directory then 1 else 0),
                modified := now }
              .ok ({ applyBatch s (batch ++ [.putMeta parent parent_meta',
                .putMeta new_parent np_meta']) with raw := raw }, removed)

/-- `Bijou::init`: the fresh vault after creating the root directory. -/
def initStore (now : Nat) : Store where
  metas := [(0, ⟨0, .directory, now, now, 2, none⟩)]
  entries := [((0, dotName), ⟨0, .directory⟩), ((0, ddName), ⟨0, .directory⟩)]
  symlinks := []
  xattrs := []
  raw := []

/-- State after `mkdir /a` in a fresh vault. -/
def c3S1 : Store :=
  match make_node (initStore 0) 0 ['a'] FileKind.directory none none 1 1 with
  | .ok p => p.1
  | .error _ => initStore 0

/-- State after then renaming `/a` to `/b` (same parent). -/
def c3S2 : Store :=
  match rename c3S1 0 ['a'] 0 ['b'] 2 with
  | .ok p => p.1
  | .error _ => c3S1

/-- C3 (code bug): renaming the directory `a` to `b` inside the same parent
leaves the root's `nlinks` at 4 although it still has exactly one
sub-directory.  `rename` buffers `nlinks - 1` for the old parent and then
`nlinks + 1` for the new parent, but both values come from reads of the
committed store (a RocksDB `WriteBatch` is not visible to reads), so when the
two parents are the same key the second put overwrites the first and the
invariant `nlinks = 2 + subdirectories` is broken. -/
theorem C3_rename_same_parent_breaks_nlinks :
    make_node (initStore 0) 0 ['a'] FileKind.directory none none 1 1
      = .ok (c3S1, ⟨1, FileKind.directory, 1, 1, 2, none⟩) ∧
    rename c3S1 0 ['a'] 0 ['b'] 2 = .ok (c3S2, none) ∧
    dirNlinksOk (initStore 0) ∧
    dirNlinksOk c3S1 ∧
    ¬ dirNlinksOk c3S2 ∧
    (alGet c3S2.metas 0).map FMeta.nlinks = some 4 ∧
    subdirCount c3S2 0 = 1 := by
  refine ⟨rfl, rfl, by decide, by decide, by decide, by decide, by decide⟩

theorem alGet_mem {κ ν : Type} [DecidableEq κ] (l : List (κ × ν)) (k : κ) (v : ν)
    (h : alGet l k = some v) : (k, v) ∈ l := by
  induction l with
  | nil => simp [alGet] at h
  | cons kv rest ih =>
    by_cases hk : kv.1 = k
    · simp only [alGet, if_pos hk] at h
      have hkv : kv = (k, v) := by
        obtain ⟨k0, v0⟩ := kv
        simp only at hk
        cases h
        rw [hk]
      rw [hkv]
      exact List.mem_cons_self _ _
    · simp only [alGet, if_neg hk] at h
      exact List.mem_cons_of_mem _ (ih h)

theorem three_distinct_le_length {α : Type} [DecidableEq α] (l : List α)
    (a b c : α) (ha : a ∈ l) (hb : b ∈ l) (hc : c ∈ l)
    (hab : a ≠ b) (hac : a ≠ c) (hbc : b ≠ c) : 3 ≤ l.length := by
  have hsub : ({a, b, c} : Finset α) ⊆ l.toFinset := by
    intro x hx
    simp only [Finset.mem_insert, Finset.mem_singleton] at hx
    rcases hx with rfl | rfl | rfl <;> simpa [List.mem_toFinset]
  have hcard : ({a, b, c} : Finset α).card = 3 := by
    rw [Finset.card_insert_of_not_mem (by simp [hab, hac]),
      Finset.card_insert_of_not_mem (by simp [hbc]), Finset.card_singleton]
  have h1 := Finset.card_le_card hsub
  have h2 := List.toFinset_card_le l
  omega

/-- C8: unlinking a directory that contains any entry besides `.` and `..`
(which always exist for a directory) fails with `NotEmpty`, and the
key-value store is left unchanged: the error propagates out of
`unlink_inner` before `batch.commit()`, so no batch is committed (the
embedding returns the new store only on success, and the `unlinkStore`
runner keeps the original store on the error path). -/
theorem C8_unlink_nonempty_dir (s : Store) (parent : Nat)
    (name extraName : List Char) (item dI ddI xI : DirItemM) (meta : FMeta)
    (now : Nat)
    (hitem : alGet s.entries (parent, name) = some item)
    (hmeta : alGet s.metas item.id = some meta)
    (hkind : meta.kind = FileKind.directory)
    (hdot : alGet s.entries (item.id, dotName) = some dI)
    (hddot : alGet s.entries (item.id, ddName) = some ddI)
    (hextra : alGet s.entries (item.id, extraName) = some xI)
    (hne1 : extraName ≠ dotName) (hne2 : extraName ≠ ddName) :
    unlinkOp s parent name now = .error .notEmpty ∧
    unlinkStore s parent name now = s := by
  have hcount : 3 ≤ dirEntryCount s item.id := by
    refine three_distinct_le_length _ ((item.id, dotName), dI)
      ((item.id, ddName), ddI) ((item.id, extraName), xI) ?_ ?_ ?_ ?_ ?_ ?_
    · exact List.mem_filter.mpr ⟨alGet_mem _ _ _ hdot, by simp⟩
    · exact List.mem_filter.mpr ⟨alGet_mem _ _ _ hddot, by simp⟩
    · exact List.mem_filter.mpr ⟨alGet_mem _ _ _ hextra, by simp⟩
    · simp [dotName, ddName]
    · simp [Prod.ext_iff]
      intro h
      exact absurd h.symm hne1
    · simp [Prod.ext_iff]
      intro h
      exact absurd h.symm hne2
  have hrun : unlink_inner s s.raw [] parent name now = .error .notEmpty := by
    rw [unlink_inner, hitem]
    simp only [hmeta]
    rw [if_pos ⟨hkind, hcount⟩]
  constructor
  · rw [unlinkOp, hrun]
  · rw [unlinkStore, unlinkOp, hrun]

/-- Concrete store for the C8 witness: root(0) contains directory `d`(1),
which contains `.`/`..` and a file `x`(2). -/
def c8Store : Store where
  metas := [(0, ⟨0, .directory, 0, 0, 3, none⟩),
    (1, ⟨1, .directory, 0, 0, 2, none⟩), (2, ⟨2, .file, 0, 0, 1, none⟩)]
  entries := [((0, dotName), ⟨0, .directory⟩), ((0, ddName), ⟨0, .directory⟩),
    ((0, ['d']), ⟨1, .directory⟩),
    ((1, dotName), ⟨1, .directory⟩), ((1, ddName), ⟨0, .directory⟩),
    ((1, ['x']), ⟨2, .file⟩)]
  symlinks := []
  xattrs := []
  raw := [2]

theorem C8_witness :
    (alGet c8Store.entries (0, ['d']) = some ⟨1, FileKind.directory⟩ ∧
      alGet c8Store.metas 1 = some ⟨1, FileKind.directory, 0, 0, 2, none⟩ ∧
      alGet c8Store.entries (1, ['x']) = some ⟨2, FileKind.file⟩) ∧
    unlinkOp c8Store 0 ['d'] 7 = .error .notEmpty ∧
    unlinkStore c8Store 0 ['d'] 7 = c8Store := by
  refine ⟨⟨by decide, by decide, by decide⟩, ?_⟩
  exact C8_unlink_nonempty_dir c8Store 0 ['d'] ['x'] ⟨1, .directory⟩
    ⟨1, .directory⟩ ⟨0, .directory⟩ ⟨2, .file⟩ ⟨1, .directory, 0, 0, 2, none⟩ 7
    (by decide) (by decide) (by decide) (by decide) (by decide) (by decide)
    (by decide) (by decide)

/-! ## XChaCha20-SIV filename encryption (C5)

`bijou/src/crypto/xchacha20_siv.rs` (`ABYTES = 32`) and the `Bijou::child_key`
encryption path.  BLAKE2b (`generic_hash`, keyed, with requested output
length; the streaming state is hashing of the concatenated updates) and the
XChaCha20 stream cipher are parameters `hashFn`/`streamXor`; bytes are `Nat`
with `%`/`^^^`/`|||`/`&&&` for the u8 operations. -/

/-- `s2v_dbl256`: double the 256-bit big-endian value and conditionally xor
in the reduction polynomial `0x0425` (constant-time via the `mask`). -/
def s2v_dbl256 (d : List Nat) : List Nat :=
  let m := if 128 ≤ d.headD 0 then 255 else 0
  (List.range 32).map (fun i =>
    let base := (d.getD i 0 * 2 % 256) ||| (d.getD (i + 1) 0 / 128)
    if i = 30 then base ^^^ (4 &&& m)
    else if i = 31 then base ^^^ (37 &&& m)
    else base)

/-- `s2v_xor`: xor `h` into the prefix of `d` (the rest of `d` unchanged). -/
def s2v_xor (d h : List Nat) : List Nat :=
  d.zipWith (fun a b => a ^^^ b) h ++ d.drop h.length

/-- `s2v`: fold associated data and message into the 32-byte synthetic IV. -/
def s2v (hashFn : Nat → List Nat → List Nat → List Nat)
    (m ad ka : List Nat) : List Nat :=
  let d0 := hashFn 32 (zeros 32) ka
  let d1 := s2v_dbl256 d0
  let iv := hashFn 32 ad ka
  let d2 := s2v_xor d1 iv
  if 32 ≤ m.length then
    let d3 := s2v_xor d2 (m.drop (m.length - 32))
    hashFn 32 (m.take (m.length - 32) ++ d3) ka
  else
    let d3 := s2v_dbl256 d2
    let d4 := s2v_xor d3 m
    let d5 := d4.set m.length (d4.getD m.length 0 ^^^ 128)
    hashFn 32 d5 ka

/-- `derive_keys`: split the 64-byte BLAKE2b digest of the empty string into
the MAC key `ka` and the encryption key `ke`. -/
def derive_keys (hashFn : Nat → List Nat → List Nat → List Nat)
    (key : List Nat) : List Nat × List Nat :=
  let digest := hashFn 64 [] key
  (digest.take 32, digest.drop 32)

/-- `encrypt_detached`: returns the in-place ciphertext and the 32-byte tag;
the first 24 tag bytes serve as the XChaCha20 nonce. -/
def encrypt_detached (hashFn : Nat → List Nat → List Nat → List Nat)
    (streamXor : List Nat → List Nat → List Nat → List Nat)
    (c ad key : List Nat) : List Nat × List Nat :=
  let ks := derive_keys hashFn key
  let mac := s2v hashFn c ad ks.1
  (fitLen c.length (streamXor c (mac.take 24) ks.2), mac)

/-- The parent's database key `"f" · FileId(LE)` (`'f'` = 102). -/
def fileKeyBytes (id : Nat) : List Nat := 102 :: le64 id

/-- `Bijou::child_key` with filename encryption enabled: `'.'`/`'..'` stay in
plaintext; any other name is encrypted with the parent's database key bytes
as associated data, and the stored key is
`parentKey · ":" · (ciphertext ++ tag)` (`':'` = 58, `'.'` = 46). -/
def child_key (hashFn : Nat → List Nat → List Nat → List Nat)
    (streamXor : List Nat → List Nat → List Nat → List Nat)
    (fnKey parentKey name : List Nat) : List Nat :=
  if name = [46] ∨ name = [46, 46] then parentKey ++ 58 :: name
  else
    let st := encrypt_detached hashFn streamXor name parentKey fnKey
    parentKey ++ 58 :: (st.1 ++ st.2)

theorem fitLen_length (n : Nat) (l : List Nat) : (fitLen n l).length = n := by
  rw [fitLen, List.length_take, List.length_append]
  simp only [zeros, List.length_replicate]
  exact min_eq_left (by omega)

/-- A degenerate (but length-lawful) instantiation of the BLAKE2b
parameter, for concrete evaluation. -/
def hashFn0 : Nat → List Nat → List Nat → List Nat := fun n _ _ => zeros n

/-- A degenerate (length-preserving) instantiation of the XChaCha20 stream
parameter, for concrete evaluation. -/
def streamXor0 : List Nat → List Nat → List Nat → List Nat := fun c _ _ => c

/-- C5 counterexample: the tag of `encrypt_detached` has 32 bytes
(`ABYTES = 32`), not 24, already falsifying the claim at a concrete
message. -/
theorem C5_counterexample :
    (encrypt_detached hashFn0 streamXor0 [1, 2, 3] [9] (zeros 32)).2.length = 32 ∧
    ¬ (encrypt_detached hashFn0 streamXor0 [1, 2, 3] [9] (zeros 32)).2.length = 24 := by
  decide

/-- C5 (amended): for every message, associated data and key (for any
length-lawful hash and stream primitives), XChaCha20-SIV `encrypt_detached`
outputs a 32-byte tag (of which the first 24 bytes are used as the stream
nonce), and with filename encryption enabled every stored directory-entry
key for a name other than `.` and `..` is the parent's 9-byte database key
(`"f"` ‖ 8-byte little-endian FileId), the separator `":"`, then the
encrypted name bytes followed by the 32-byte tag — with that same 9-byte
parent database key (not the bare 8-byte FileId) as associated data. -/
theorem C5_siv_tag_and_child_key
    (hashFn : Nat → List Nat → List Nat → List Nat)
    (streamXor : List Nat → List Nat → List Nat → List Nat)
    (hlen : ∀ n msg k, (hashFn n msg k).length = n)
    (fnKey : List Nat) (parent : Nat) (name : List Nat)
    (hn1 : ¬ name = [46]) (hn2 : ¬ name = [46, 46]) :
    child_key hashFn streamXor fnKey (fileKeyBytes parent) name
      = fileKeyBytes parent ++ 58 ::
          ((encrypt_detached hashFn streamXor name (fileKeyBytes parent) fnKey).1
            ++ (encrypt_detached hashFn streamXor name (fileKeyBytes parent) fnKey).2) ∧
    (encrypt_detached hashFn streamXor name (fileKeyBytes parent) fnKey).2.length
      = 32 ∧
    (encrypt_detached hashFn streamXor name (fileKeyBytes parent) fnKey).1.length
      = name.length ∧
    (fileKeyBytes parent).length = 9 := by
  refine ⟨?_, ?_, ?_, ?_⟩
  · rw [child_key, if_neg (by simp [hn1, hn2])]
  · rw [encrypt_detached]
    simp only [s2v]
    by_cases hm : 32 ≤ name.length
    · rw [if_pos hm]
      exact hlen 32 _ _
    · rw [if_neg hm]
      exact hlen 32 _ _
  · rw [encrypt_detached]
    exact fitLen_length _ _
  · simp [fileKeyBytes, le64]

theorem C5_amended_witness :
    ((∀ n msg k, (hashFn0 n msg k).length = n) ∧
      ¬ ([97] : List Nat) = [46] ∧ ¬ ([97] : List Nat) = [46, 46]) ∧
    (child_key hashFn0 streamXor0 (zeros 32) (fileKeyBytes 5) [97]
      = fileKeyBytes 5 ++ 58 ::
          ((encrypt_detached hashFn0 streamXor0 [97] (fileKeyBytes 5)
              (zeros 32)).1
            ++ (encrypt_detached hashFn0 streamXor0 [97] (fileKeyBytes 5)
              (zeros 32)).2) ∧
      (encrypt_detached hashFn0 streamXor0 [97] (fileKeyBytes 5)
        (zeros 32)).2.length = 32 ∧
      (encrypt_detached hashFn0 streamXor0 [97] (fileKeyBytes 5)
        (zeros 32)).1.length = List.length [97] ∧
      (fileKeyBytes 5).length = 9) := by
  refine ⟨⟨fun n msg k => by simp [hashFn0, zeros], by decide, by decide⟩, ?_⟩
  exact C5_siv_tag_and_child_key hashFn0 streamXor0
    (fun n msg k => by simp [hashFn0, zeros]) (zeros 32)
    5 [97] (by decide) (by decide)

/-! ## Low-level file block pipeline (C7, C9)

`LowLevelFile::write`, `set_len_inner` and `set_len` of
`bijou-core/src/fs/file.rs`, over the `RawFile` backend.  The backend is the
`LocalFile` flat file (`fs/raw/local.rs`: `read_block`/`write_block` are
`read_at`/`write_at` at byte offset `block * buffer.len()`, `set_len`
truncates or zero-extends) wrapped in `TrackingFile`
(`bijou/src/fs/raw/tracking.rs`), whose `set_metadata` stores the handed-over
`RawFileMeta`.  `c`/`h`/`t` are `content_size`/`header_size`/`tag_size`
(`block_size = h + c + t`, `metadata_size = h + t`); the `AlgoKey` is a pair
of functions `enc`/`dec` from block index and buffer slice to the in-place
result, whose output is clamped to the slice length with `fitLen` (the Rust
primitive works in place).  The thread-local `BUFFER` is all zeros at entry
(`read`/`write` `memzero` it before returning).  Division is only reached
with positive divisors in the program (`content_size > 0` for every
algorithm). -/

/-- `RawFileMeta` (`bijou-core/src/fs/raw.rs`): size plus optional
accessed/modified timestamps. -/
structure RMeta where
  size : Nat
  accessed : Option Nat
  modified : Option Nat
  deriving DecidableEq, Repr

/-- Backend state: the flat byte content of the local file, and the last
`RawFileMeta` handed to `set_metadata` (stored by `TrackingFile`). -/
structure RawSt where
  data : List Nat
  persisted : Option RMeta
  deriving DecidableEq, Repr

/-- Bytes returned by `LocalFile::read_block` for block `b`: at most `bs`
bytes starting at offset `b * bs`. -/
def readBlockBytes (bs : Nat) (r : RawSt) (b : Nat) : List Nat :=
  (r.data.drop (b * bs)).take bs

/-- `write_at` on the flat file: overwrite `seg` at byte offset `off`,
zero-filling any gap past the current end of file. -/
def writeAt (fdata : List Nat) (off : Nat) (seg : List Nat) : List Nat :=
  fitLen off fdata ++ seg ++ fdata.drop (off + seg.length)

/-- `LocalFile::write_block`: write `buf[..blockEnd]` at offset `b * bs`
(`bs` is the full buffer length, `block_size`). -/
def RawSt.writeBlock (bs : Nat) (r : RawSt) (buf : List Nat)
    (blockEnd b : Nat) : RawSt :=
  { r with data := writeAt r.data (b * bs) (buf.take blockEnd) }

/-- `LocalFile::set_len`: `File::set_len` truncates or zero-extends. -/
def RawSt.setLenRaw (r : RawSt) (n : Nat) : RawSt :=
  { r with data := fitLen n r.data }

/-- `TrackingFile::set_metadata`: store the handed-over metadata. -/
def RawSt.setMetadata (r : RawSt) (m : RMeta) : RawSt :=
  { r with persisted := some m }

/-- `LowLevelFile::load_block`: read block `b` into `buffer`, and decrypt the
`blockEnd` prefix unless the block is absent; a non-empty block shorter than
the header is a `CryptoError` ("incomplete block"). -/
def load_block (dec : Nat → List Nat → Except Err (List Nat)) (bs h : Nat)
    (r : RawSt) (buffer : List Nat) (b : Nat) :
    Except Err (List Nat × Nat) :=
  let red := readBlockBytes bs r b
  let blockEnd := red.length
  let buf := red ++ buffer.drop blockEnd
  if blockEnd = 0 then .ok (buf, 0)
  else if blockEnd < h then .error .cryptoError
  else match dec b (buf.take blockEnd) with
    | .error e => .error e
    | .ok pt => .ok (fitLen blockEnd pt ++ buf.drop blockEnd, blockEnd)

/-- `LowLevelFile::edit_block`: read, decrypt, transform buffer and block end
through `f`, re-encrypt and write back. -/
def edit_block (enc dec : Nat → List Nat → Except Err (List Nat)) (bs : Nat)
    (r : RawSt) (b : Nat) (f : List Nat → Nat → List Nat × Nat) :
    Except Err RawSt :=
  let red := readBlockBytes bs r b
  let blockEnd := red.length
  let buffer := red ++ (zeros bs).drop blockEnd
  match dec b (buffer.take blockEnd) with
  | .error e => .error e
  | .ok pt =>
    let buf1 := fitLen blockEnd pt ++ buffer.drop blockEnd
    let fr := f buf1 blockEnd
    match enc b (fr.1.take fr.2) with
    | .error e => .error e
    | .ok ctb =>
      .ok (RawSt.writeBlock bs r (fitLen fr.2 ctb ++ fr.1.drop fr.2) fr.2 b)

/-- `LowLevelFile::set_len_inner`: early return when the current plaintext
size already equals `len`; otherwise fix up the boundary block (zero-fill on
growth when the old size ends mid-block, truncate the block end on shrink
when the new size ends mid-block), resize the raw file to
`ciphertext_size len` and record that size in the metadata. -/
def set_len_inner (enc dec : Nat → List Nat → Except Err (List Nat))
    (c h t : Nat) (r : RawSt) (meta : RMeta) (len : Nat) :
    Except Err (RawSt × RMeta) :=
  let current_size := plaintext_size c (h + t) meta.size
  if current_size = len then .ok (r, meta)
  else
    match (if current_size < len then
        (let blk := current_size / c
         let off := current_size % c
         if off ≠ 0 then
           edit_block enc dec (h + c + t) r blk (fun dt blockEnd =>
             let e := if len / c = blk then h + t + len % c else dt.length
             (writeAt dt blockEnd (zeros (e - blockEnd)), e))
         else .ok r)
      else
        (let blk := len / c
         let off := len % c
         if off ≠ 0 then
           edit_block enc dec (h + c + t) r blk (fun dt _ => (dt, h + t + off))
         else .ok r)) with
    | .error e => .error e
    | .ok r1 =>
      let new_len := ciphertext_size c (h + t) len
      .ok (RawSt.setLenRaw r1 new_len, { meta with size := new_len })

/-- `LowLevelFile::set_len`: write-capability check, `set_len_inner`, then
hand the metadata to the backend. -/
def set_len (enc dec : Nat → List Nat → Except Err (List Nat))
    (c h t : Nat) (writeFlag : Bool) (r : RawSt) (meta : RMeta) (len : Nat) :
    Except Err (RawSt × RMeta) :=
  match writeFlag with
  | false => .error .badFileDescriptor
  | true =>
    match set_len_inner enc dec c h t r meta len with
    | .error e => .error e
    | .ok (r1, m1) => .ok (RawSt.setMetadata r1 m1, m1)

/-- `data.chunks(c)` for `c > 0`: the successive sub-slices of length `c`
(last one possibly shorter). -/
def chunksList (c : Nat) (data : List Nat) : List (List Nat) :=
  (List.range ((data.length + c - 1) / c)).map
    (fun i => (data.drop (i * c)).take c)

/-- The `for chunk in data.chunks(content_size)` loop of
`LowLevelFile::write`: a partial chunk re-loads the existing block, the chunk
is copied at the header offset, the block is encrypted and written, and the
loop stops after a partial chunk. -/
def writeChunksGo (enc dec : Nat → List Nat → Except Err (List Nat))
    (c h t : Nat) :
    List (List Nat) → RawSt → List Nat → Nat → Nat → Except Err (RawSt × Nat)
  | [], r, _, _, written => .ok (r, written)
  | chunk :: rest, r, buffer, b, written =>
    let bs := h + c + t
    match (if chunk.length < c then load_block dec bs h r buffer b
        else .ok (buffer, 0)) with
    | .error e => .error e
    | .ok (buf1, be0) =>
      let buf2 := writeAt buf1 h chunk
      let blockEnd := max be0 (h + chunk.length + t)
      match enc b (buf2.take blockEnd) with
      | .error e => .error e
      | .ok ctb =>
        let buf3 := fitLen blockEnd ctb ++ buf2.drop blockEnd
        let r1 := RawSt.writeBlock bs r buf3 blockEnd b
        let written1 := written + chunk.length
        if chunk.length < c then .ok (r1, written1)
        else writeChunksGo enc dec c h t rest r1 buf3 (b + 1) written1

/-- `LowLevelFile::write`: write-capability and empty-data checks, extension
via `set_len_inner` when `offset` lies beyond the current plaintext size,
first (possibly partial) block, then the chunk loop; finally the metadata
update `size := max size (ciphertext_size (offset + written))`,
`modified := now`, handed to the backend.  `data.chunks(0)` panics in Rust,
hence the `c = 0` guard. -/
def write (enc dec : Nat → List Nat → Except Err (List Nat))
    (c h t : Nat) (writeFlag : Bool) (now : Nat) (r : RawSt) (meta : RMeta)
    (data : List Nat) (offset : Nat) : Except Err (RawSt × RMeta × Nat) :=
  match writeFlag with
  | false => .error .badFileDescriptor
  | true =>
    if data = [] then .ok (r, meta, 0)
    else if c = 0 then .error .panicked
    else
      match (if plaintext_size c (h + t) meta.size < offset
          then set_len_inner enc dec c h t r meta offset
          else .ok (r, meta)) with
      | .error e => .error e
      | .ok (r0, m0) =>
        let bs := h + c + t
        let start_block := offset / c
        let start_offset := offset % c
        match (if start_offset ≠ 0 ∨ data.length < c
            then load_block dec bs h r0 (zeros bs) start_block
            else .ok (zeros bs, 0)) with
        | .error e => .error e
        | .ok (buf1, be0) =>
          let off1 := h + start_offset
          let len1 := min (bs - (off1 + t)) data.length
          let blockEnd := max be0 (off1 + len1 + t)
          let buf2 := writeAt buf1 off1 (data.take len1)
          match enc start_block (buf2.take blockEnd) with
          | .error e => .error e
          | .ok ctb =>
            let buf3 := fitLen blockEnd ctb ++ buf2.drop blockEnd
            let r1 := RawSt.writeBlock bs r0 buf3 blockEnd start_block
            match writeChunksGo enc dec c h t
                (chunksList c (data.drop len1)) r1 buf3 (start_block + 1)
                len1 with
            | .error e => .error e
            | .ok (r2, w) =>
              let m1 : RMeta := { m0 with
                size     := max m0.size (ciphertext_size c (h + t) (offset + w)),
                modified := some now }
              .ok (RawSt.setMetadata r2 m1, m1, w)

/-- On success, `set_len_inner` either took the early return (state and
metadata untouched, and the current plaintext size was already `len`) or set
the metadata size to `ciphertext_size len`. -/
theorem set_len_inner_ok_shape (enc dec : Nat → List Nat → Except Err (List Nat))
    (c h t : Nat) (r : RawSt) (meta : RMeta) (len : Nat)
    (r0 : RawSt) (m0 : RMeta)
    (hs : set_len_inner enc dec c h t r meta len = .ok (r0, m0)) :
    (r0 = r ∧ m0 = meta ∧ plaintext_size c (h + t) meta.size = len) ∨
    m0 = { meta with size := ciphertext_size c (h + t) len } := by
  simp only [set_len_inner] at hs
  by_cases he : plaintext_size c (h + t) meta.size = len
  · rw [if_pos he] at hs
    simp only [Except.ok.injEq, Prod.mk.injEq] at hs
    exact .inl ⟨hs.1.symm, hs.2.symm, he⟩
  · rw [if_neg he] at hs
    split at hs
    · exact Except.noConfusion hs
    · simp only [Except.ok.injEq, Prod.mk.injEq] at hs
      exact .inr hs.2.symm

/-- C7: every successful `LowLevelFile::write` of non-empty data on a handle
with write capability updates the metadata size to
`max (old size) (ciphertext_size (offset + written))`, stamps the modified
time with the current time, and hands exactly this metadata to the backend
(`TrackingFile::set_metadata` persists it). -/
theorem C7_write_updates_meta
    (enc dec : Nat → List Nat → Except Err (List Nat))
    (c h t now : Nat) (r : RawSt) (meta : RMeta) (data : List Nat)
    (offset : Nat) (r' : RawSt) (meta' : RMeta) (written : Nat)
    (hd : data ≠ []) (hc : 0 < c)
    (hw : write enc dec c h t true now r meta data offset
      = .ok (r', meta', written)) :
    meta'.size = max meta.size (ciphertext_size c (h + t) (offset + written)) ∧
    meta'.modified = some now ∧
    r'.persisted = some meta' := by
  simp only [write] at hw
  rw [if_neg hd, if_neg (show ¬ c = 0 by omega)] at hw
  split at hw
  · exact Except.noConfusion hw
  · rename_i r0 m0 heq
    split at hw
    · exact Except.noConfusion hw
    · rename_i buf1 be0 heq2
      split at hw
      · exact Except.noConfusion hw
      · rename_i ctb heq3
        split at hw
        · exact Except.noConfusion hw
        · rename_i r2 w heq4
          simp only [Except.ok.injEq, Prod.mk.injEq] at hw
          obtain ⟨h1, h2, h3⟩ := hw
          subst h1
          subst h2
          subst h3
          refine ⟨?_, rfl, rfl⟩
          show max m0.size (ciphertext_size c (h + t) (offset + w))
              = max meta.size (ciphertext_size c (h + t) (offset + w))
          split at heq
          · rename_i hext
            rcases set_len_inner_ok_shape enc dec c h t r meta offset r0 m0
                heq with ⟨_, _, hpl⟩ | hm
            · omega
            · have h4 : meta.size ≤ ciphertext_size c (h + t) offset :=
                size_le_ciphertext_of_plaintext_lt c (h + t) meta.size offset
                  hc hext
              have h5 : ciphertext_size c (h + t) offset
                  ≤ ciphertext_size c (h + t) (offset + w) :=
                ciphertext_size_mono c (h + t) hc (Nat.le_add_right offset w)
              have h6 : m0.size = ciphertext_size c (h + t) offset := by
                rw [hm]
              omega
          · rename_i hext
            simp only [Except.ok.injEq, Prod.mk.injEq] at heq
            rw [← heq.2]

/-- C9: when the current plaintext size (`plaintext_size` of the recorded
`RawFileMeta.size`) already equals `n`, `set_len n` takes the early return:
no block edit, no backend `set_len`, metadata unchanged — the only effect is
handing the unchanged metadata to the backend; and after any successful
`set_len n`, a second `set_len n` returns the state unchanged, so
`set_len n` twice is a no-op on disk. -/
theorem C9_set_len_idempotent
    (enc dec : Nat → List Nat → Except Err (List Nat))
    (c h t : Nat) (r : RawSt) (meta : RMeta) (n : Nat) (hc : 0 < c) :
    (plaintext_size c (h + t) meta.size = n →
      set_len enc dec c h t true r meta n
        = .ok (RawSt.setMetadata r meta, meta)) ∧
    (∀ r1 m1, set_len enc dec c h t true r meta n = .ok (r1, m1) →
      set_len enc dec c h t true r1 m1 n = .ok (r1, m1)) := by
  constructor
  · intro hn
    have h1 : set_len_inner enc dec c h t r meta n = .ok (r, meta) := by
      simp only [set_len_inner]
      rw [if_pos hn]
    simp only [set_len, h1]
  · intro r1 m1 h1
    simp only [set_len] at h1
    cases hE : set_len_inner enc dec c h t r meta n with
    | error e =>
      rw [hE] at h1
      exact Except.noConfusion h1
    | ok rm =>
      obtain ⟨r0, m0⟩ := rm
      rw [hE] at h1
      simp only [Except.ok.injEq, Prod.mk.injEq] at h1
      obtain ⟨hr1, hm1⟩ := h1
      subst hr1
      subst hm1
      have hpn : plaintext_size c (h + t) m0.size = n := by
        rcases set_len_inner_ok_shape enc dec c h t r meta n r0 m0 hE with
          ⟨_, hm, hpl⟩ | hm
        · rw [hm]
          exact hpl
        · rw [hm]
          exact plaintext_ciphertext_size c (h + t) n hc
      have h2 : set_len_inner enc dec c h t (RawSt.setMetadata r0 m0) m0 n
          = .ok (RawSt.setMetadata r0 m0, m0) := by
        simp only [set_len_inner]
        rw [if_pos hpn]
      simp only [set_len, h2]
      rfl

/-- The identity `AlgoKey` primitive, for concrete evaluation. -/
def encId : Nat → List Nat → Except Err (List Nat) := fun _ l => .ok l

def c7Meta : RMeta := { size := 0, accessed := none, modified := none }

def c7Raw : RawSt := { data := [], persisted := none }

def c7MetaOut : RMeta := { size := 3, accessed := none, modified := some 7 }

def c7RawOut : RawSt := { data := [0, 5, 0], persisted := some c7MetaOut }

theorem C7_witness :
    (([5] : List Nat) ≠ [] ∧ 0 < 2 ∧
      write encId encId 2 1 1 true 7 c7Raw c7Meta [5] 0
        = .ok (c7RawOut, c7MetaOut, 1)) ∧
    (c7MetaOut.size = max c7Meta.size (ciphertext_size 2 (1 + 1) (0 + 1)) ∧
      c7MetaOut.modified = some 7 ∧
      c7RawOut.persisted = some c7MetaOut) := by
  refine ⟨⟨by decide, by decide, rfl⟩, ?_⟩
  exact C7_write_updates_meta encId encId 2 1 1 7 c7Raw c7Meta [5] 0
    c7RawOut c7MetaOut 1 (by decide) (by decide) rfl

def c9Meta : RMeta := { size := 3, accessed := none, modified := none }

def c9Raw : RawSt := { data := [9, 9, 9], persisted := none }

theorem C9_witness :
    0 < 2 ∧
    ((plaintext_size 2 (1 + 1) c9Meta.size = 1 →
        set_len encId encId 2 1 1 true c9Raw c9Meta 1
          = .ok (RawSt.setMetadata c9Raw c9Meta, c9Meta)) ∧
      (∀ r1 m1, set_len encId encId 2 1 1 true c9Raw c9Meta 1 = .ok (r1, m1) →
        set_len encId encId 2 1 1 true r1 m1 1 = .ok (r1, m1))) :=
  ⟨by decide, C9_set_len_idempotent encId encId 2 1 1 c9Raw c9Meta 1 (by decide)⟩

theorem C6_witness :
    IsAbsolute ['/', 'b'] ∧
    components (pathJoin ['/', 'a'] ['/', 'b'])
      = (if (['/', 'a'] : List Char) = [] then [PComponent.rootDir]
          else components ['/', 'a'])
        ++ (components ['/', 'b']).drop 1 := by
  constructor
  · rw [IsAbsolute, components_slash_cons]
    rfl
  · exact C6_join_absolute ['/', 'a'] ['/', 'b']
      (by rw [IsAbsolute, components_slash_cons]; rfl)

end Bijou
